import Mathlib

/-!
Shallow embedding of the minesweeper board engine (src/main.rs, the final
revision of the program; src/game.rs holds an earlier historical revision
whose cursor-movement function is also embedded below for comparison).

Machine integers: the Rust code stores coordinates in `usize`/`isize` and
casts between them with `as`.  We model `usize` values as `Nat` and the
`as usize` cast of a (possibly negative) `isize` expression by reduction
modulo 2^64 (`castUsize`).  The `as isize` cast of a coordinate is modelled
by the `Int` coercion; this is faithful whenever the coordinate is below
2^63, which every theorem assumes (actual boards are at most 24 wide).

Partiality: indexing `self.data[y][x]` in Rust aborts when out of range.
The model's accessors are totalised with a default blank cell; every
theorem restricts attention to in-range accesses, where the model agrees
with the source.  The two operations that can really abort in reachable
code paths (`Vec::remove` on a missing position and slicing
`&mine_indices[0..num_mines]` past the end) are modelled with `Option`,
`none` standing for the abort.
-/

namespace Minesweeper

inductive CellType where
  | Empty
  | Adjacent (n : Nat)
  | Mine
deriving DecidableEq, Repr

structure Cell where
  covered : Bool
  cell_type : CellType
  marked : Bool
deriving DecidableEq, Repr

abbrev Board := List (List Cell)

/-- The cell produced by `create_blank_board`, also used as the default
value of the totalised accessor `cellAt`. -/
def blankCell : Cell := { covered := true, cell_type := CellType.Empty, marked := false }

def cellAt (b : Board) (p : Nat × Nat) : Cell := (b.getD p.2 []).getD p.1 blankCell

/-- Field update `self.data[y][x] = ...`; a no-op out of range (Rust would
abort there, and no theorem evaluates it out of range). -/
def modifyCell (b : Board) (p : Nat × Nat) (f : Cell → Cell) : Board :=
  b.set p.2 ((b.getD p.2 []).set p.1 (f (cellAt b p)))

/-- `covered = false; marked = false`, the uncovering assignment pair. -/
def uncoverAt (b : Board) (p : Nat × Nat) : Board :=
  modifyCell b p (fun c => { c with covered := false, marked := false })

def setKind (b : Board) (p : Nat × Nat) (k : CellType) : Board :=
  modifyCell b p (fun c => { c with cell_type := k })

/-- `Game::cell_exists`. -/
def cell_exists (b : Board) (p : Nat × Nat) : Bool :=
  match b[p.2]? with
  | some row => row[p.1]?.isSome
  | none => false

def USIZE : Nat := 2 ^ 64

/-- `as usize` applied to an `isize` value: reduction modulo 2^64. -/
def castUsize (i : Int) : Nat := (i % (USIZE : Int)).toNat

/-- The eight direction offsets of `Game::get_surrounding_cells`, in source
order: NW, W, SW, N, S, NE, E, SE. -/
def directions : List (Int × Int) :=
  [(-1, 1), (-1, 0), (-1, -1), (0, 1), (0, -1), (1, 1), (1, 0), (1, -1)]

/-- `Game::get_surrounding_cells`. -/
def get_surrounding_cells (b : Board) (p : Nat × Nat) : List (Nat × Nat × CellType) :=
  directions.filterMap (fun d =>
    let q : Nat × Nat := (castUsize ((p.1 : Int) + d.1), castUsize ((p.2 : Int) + d.2))
    if cell_exists b q then some (q.1, q.2, (cellAt b q).cell_type) else none)

/-- Coordinates of the existing neighbours. -/
def surroundingCoords (b : Board) (p : Nat × Nat) : List (Nat × Nat) :=
  (get_surrounding_cells b p).map (fun q => (q.1, q.2.1))

def coveredCount (b : Board) : Nat :=
  (b.map (fun row => row.countP (fun c => c.covered))).sum

/-- `Game::remove_surrounding_empty_cells`, indexed by fuel.  The Rust
function recurses without a bound; `remove_fuel_stable` (claim C4) shows
the approximations stabilise once the fuel exceeds the number of covered
cells, which is why `uncover_cell` below runs it at `coveredCount + 1`. -/
def remove_surrounding_empty_cells : Nat → Board → Nat × Nat → Board
  | 0, b, _ => b
  | fuel + 1, b, c =>
    (get_surrounding_cells b c).foldl
      (fun acc q =>
        if q.2.2 = CellType.Empty ∧ (cellAt acc (q.1, q.2.1)).covered = true then
          remove_surrounding_empty_cells fuel (uncoverAt acc (q.1, q.2.1)) (q.1, q.2.1)
        else
          uncoverAt acc (q.1, q.2.1))
      b

/-- One iteration of the loop body of `remove_surrounding_empty_cells`. -/
def floodStep (fuel : Nat) (acc : Board) (q : Nat × Nat × CellType) : Board :=
  if q.2.2 = CellType.Empty ∧ (cellAt acc (q.1, q.2.1)).covered = true then
    remove_surrounding_empty_cells fuel (uncoverAt acc (q.1, q.2.1)) (q.1, q.2.1)
  else
    uncoverAt acc (q.1, q.2.1)

/-- `Game::uncover_cell` (the `get_current_cell` read happens at the
selection, which is the argument at every call site). -/
def uncover_cell (b : Board) (sel : Nat × Nat) : Board :=
  if (cellAt (uncoverAt b sel) sel).cell_type = CellType.Empty then
    remove_surrounding_empty_cells (coveredCount (uncoverAt b sel) + 1) (uncoverAt b sel) sel
  else
    uncoverAt b sel

structure Game where
  data : Board
  num_mines : Nat
  width : Nat
  height : Nat
  selection : Nat × Nat
  is_touched : Bool
  show_everything : Bool
deriving DecidableEq, Repr

/-- `Game::create_blank_board`. -/
def create_blank_board (w h : Nat) : Board := List.replicate h (List.replicate w blankCell)

/-- The row scan of `Game::has_won`: `none` models the early `return false`
on an uncovered mine, otherwise counts the uncovered cells. -/
def count_uncovered_row : List Cell → Option Nat
  | [] => some 0
  | c :: r =>
    if c.covered = false then
      if c.cell_type = CellType.Mine then none
      else (count_uncovered_row r).map (· + 1)
    else count_uncovered_row r

def count_uncovered : Board → Option Nat
  | [] => some 0
  | row :: rest => do
    let a ← count_uncovered_row row
    let b ← count_uncovered rest
    pure (a + b)

/-- `Game::has_won`. -/
def has_won (g : Game) : Bool :=
  match count_uncovered g.data with
  | none => false
  | some n => n = g.width * g.height - g.num_mines

/-- `Iterator::rposition`: index of the last occurrence. -/
def rpos : List Nat → Nat → Option Nat
  | [], _ => none
  | a :: l, v =>
    match rpos l v with
    | some i => some (i + 1)
    | none => if a = v then some 0 else none

/-- `mine_indices.remove(mine_indices.iter().rposition(|&a| a == v).unwrap())`;
`none` models the abort of `unwrap` when the value is absent. -/
def removeIdxOf (l : List Nat) (v : Nat) : Option (List Nat) :=
  match rpos l v with
  | some i => some (l.eraseIdx i)
  | none => none

/-- The `mine_indices` list of `Game::populate_board` after the two removal
steps (cursor position, then each surrounding cell by value). -/
def mine_indices (b : Board) (w : Nat) (sel : Nat × Nat) (numCells : Nat) :
    Option (List Nat) :=
  (get_surrounding_cells b sel).foldlM
    (fun acc q => removeIdxOf acc (q.2.1 * w + q.1))
    ((List.range numCells).eraseIdx (sel.2 * w + sel.1))

/-- The mine-placing loop of `Game::populate_board`; `none` models the
abort of slicing `&mine_indices[0..num_mines]` past the end.  Note the
source computes `y` as `i / self.height`. -/
def place_mines (w h m : Nat) (ind : List Nat) (b : Board) : Option Board :=
  if m ≤ ind.length then
    some ((ind.take m).foldl (fun acc i => setKind acc (i % w, i / h) CellType.Mine) b)
  else none

/-- The neighbouring-mine count read inside the adjacency pass. -/
def adjacent_count (b : Board) (p : Nat × Nat) : Nat :=
  (get_surrounding_cells b p).countP (fun q => decide (q.2.2 = CellType.Mine))

/-- The body of the adjacency double loop of `Game::populate_board`. -/
def compute_adjacency_step (b : Board) (p : Nat × Nat) : Board :=
  if (cellAt b p).cell_type = CellType.Empty then
    if 0 < adjacent_count b p then setKind b p (CellType.Adjacent (adjacent_count b p)) else b
  else b

/-- Raster order of the adjacency double loop: y outer, x inner. -/
def raster (w h : Nat) : List (Nat × Nat) :=
  (List.range h).flatMap (fun y => (List.range w).map (fun x => (x, y)))

def compute_adjacency (w h : Nat) (b : Board) : Board :=
  (raster w h).foldl compute_adjacency_step b

/-- `Game::populate_board`.  The `rand` shuffle is abstracted as a function
parameter; theorems that depend on it assume it permutes its input. -/
def populate_board (shuffle : List Nat → List Nat) (g : Game) : Option Game := do
  let ind ← mine_indices g.data g.width g.selection (g.width * g.height)
  let b1 ← place_mines g.width g.height g.num_mines (shuffle ind) g.data
  pure { g with data := compute_adjacency g.width g.height b1 }

inductive MoveKey where
  | up | down | left | right
deriving DecidableEq, Repr

/-- The `change` pair of `Game::get_input`: the selection offset over
`isize` chosen by the arrow/wasd key. -/
def moveTarget (g : Game) (k : MoveKey) : Int × Int :=
  match k with
  | .up => ((g.selection.1 : Int), (g.selection.2 : Int) + 1)
  | .down => ((g.selection.1 : Int), (g.selection.2 : Int) - 1)
  | .left => ((g.selection.1 : Int) - 1, (g.selection.2 : Int))
  | .right => ((g.selection.1 : Int) + 1, (g.selection.2 : Int))

/-- The arrow/wasd branch of `Game::get_input` (main.rs, final revision):
offset over `isize`, cast back with `as usize`, keep the old selection
when the target cell does not exist. -/
def get_input_direction (g : Game) (k : MoveKey) : Nat × Nat :=
  if cell_exists g.data (castUsize (moveTarget g k).1, castUsize (moveTarget g k).2) then
    (castUsize (moveTarget g k).1, castUsize (moveTarget g k).2)
  else g.selection

/-- `get_next_selection` from src/game.rs (the earlier historical
revision); its arrow-key branch only, `none` modelling the non-arrow
events. -/
def get_next_selection (k : MoveKey) (sel : Nat × Nat) (width height : Nat) :
    Option (Nat × Nat) :=
  let w := width - 1
  let h := height - 1
  match k with
  | .up => if sel.2 = 0 then some sel else some (sel.1, sel.2 - 1)
  | .down => if sel.2 < h then some (sel.1, sel.2 + 1) else some sel
  | .right =>
    if sel.1 = w ∧ sel.2 < h then some (0, sel.2 + 1)
    else if sel.2 ≤ h ∧ sel.1 ≠ w then some (sel.1 + 1, sel.2)
    else some sel
  | .left =>
    if sel.1 = 0 ∧ sel.2 ≠ 0 then some (w, sel.2 - 1)
    else if sel.1 = 0 ∧ sel.2 = 0 then some sel
    else some (sel.1 - 1, sel.2)

inductive SessionResult where
  | Playing
  | Won
  | Lost
deriving DecidableEq, Repr

/-- The `Input::Select` arm of the `Game::run` loop together with the
mine/win checks that follow it; `end_screen` contributes the
`show_everything = true` assignment on a win or a loss.  `Playing` stands
for staying in the loop (including the `continue` on an already uncovered
cell). -/
def select_command (shuffle : List Nat → List Nat) (g : Game) :
    Option (Game × SessionResult) := do
  let g1 ←
    if g.is_touched then some g
    else (populate_board shuffle g).map (fun g2 => { g2 with is_touched := true })
  if (cellAt g1.data g1.selection).covered = false then
    some (g1, SessionResult.Playing)
  else
    let g2 := { g1 with data := uncover_cell g1.data g1.selection }
    if (cellAt g2.data g2.selection).cell_type = CellType.Mine ∧
        (cellAt g2.data g2.selection).covered = false then
      some ({ g2 with show_everything := true }, SessionResult.Lost)
    else if has_won g2 then
      some ({ g2 with show_everything := true }, SessionResult.Won)
    else
      some (g2, SessionResult.Playing)

/-- A cell's kind is rendered by `draw_board` iff the game is showing
everything or the cell is neither marked nor covered. -/
def is_visible (g : Game) (c : Cell) : Bool :=
  g.show_everything || (!c.marked && !c.covered)

/-- Well-formed rectangular board of the given dimensions. -/
def wf (b : Board) (w h : Nat) : Prop := b.length = h ∧ ∀ r ∈ b, r.length = w

def inBounds (w h : Nat) (p : Nat × Nat) : Prop := p.1 < w ∧ p.2 < h


/-- One flood step of the Empty-component relation: `v` is an existing
neighbour of `u` and has kind `Empty`. -/
def reachStep (b : Board) (u v : Nat × Nat) : Prop :=
  v ∈ surroundingCoords b u ∧ (cellAt b v).cell_type = CellType.Empty

/-- `p` lies in the connected component of `Empty` cells of `c` (with
respect to the kind structure of `b`). -/
def reachEmpty (b : Board) (c p : Nat × Nat) : Prop :=
  Relation.ReflTransGen (reachStep b) c p

/-- First half of the adjacency invariant: an `Empty` cell has no mine
among its existing neighbours. -/
def emptyNoMine (b : Board) (w h : Nat) : Prop :=
  ∀ x, x < w → ∀ y, y < h → (cellAt b (x, y)).cell_type = CellType.Empty →
    ∀ q ∈ surroundingCoords b (x, y), (cellAt b q).cell_type ≠ CellType.Mine

/-- True exactly on the `Adjacent` kinds. -/
def isAdjacentKind : CellType → Bool
  | CellType.Adjacent _ => true
  | _ => false

/-- Second half of the adjacency invariant: an `Adjacent n` cell has
exactly `n` mines among its existing neighbours, i.e. its label is its
neighbouring-mine count. -/
def adjacentExact (b : Board) (w h : Nat) : Prop :=
  ∀ x, x < w → ∀ y, y < h → isAdjacentKind (cellAt b (x, y)).cell_type = true →
    (cellAt b (x, y)).cell_type = CellType.Adjacent (adjacent_count b (x, y))

/-- Every cell of the grid is covered. -/
def allCoveredBoard (b : Board) (w h : Nat) : Prop :=
  ∀ x, x < w → ∀ y, y < h → (cellAt b (x, y)).covered = true

/-- Number of mine-kind cells of the board. -/
def mineCount (b : Board) : Nat :=
  (b.map (fun row => row.countP (fun c => decide (c.cell_type = CellType.Mine)))).sum

/-- A concrete 4 by 4 game as the generator first sees it. -/
def sampleGame : Game :=
  { data := create_blank_board 4 4, num_mines := 2, width := 4, height := 4,
    selection := (1, 1), is_touched := false, show_everything := false }

/-- The value of `populate_board id sampleGame`. -/
def samplePopulated : Game :=
  { data :=
      [[⟨true, CellType.Empty, false⟩, ⟨true, CellType.Empty, false⟩,
        ⟨true, CellType.Adjacent 2, false⟩, ⟨true, CellType.Mine, false⟩],
       [⟨true, CellType.Empty, false⟩, ⟨true, CellType.Empty, false⟩,
        ⟨true, CellType.Adjacent 2, false⟩, ⟨true, CellType.Mine, false⟩],
       [⟨true, CellType.Empty, false⟩, ⟨true, CellType.Empty, false⟩,
        ⟨true, CellType.Adjacent 1, false⟩, ⟨true, CellType.Adjacent 1, false⟩],
       [⟨true, CellType.Empty, false⟩, ⟨true, CellType.Empty, false⟩,
        ⟨true, CellType.Empty, false⟩, ⟨true, CellType.Empty, false⟩]],
    num_mines := 2, width := 4, height := 4, selection := (1, 1),
    is_touched := false, show_everything := false }

/-- A fully covered 3 by 3 board with one mine at `(2, 2)` and correct
adjacency counts. -/
def sampleMineBoard : Board :=
  [[⟨true, CellType.Empty, false⟩, ⟨true, CellType.Empty, false⟩,
    ⟨true, CellType.Empty, false⟩],
   [⟨true, CellType.Empty, false⟩, ⟨true, CellType.Adjacent 1, false⟩,
    ⟨true, CellType.Adjacent 1, false⟩],
   [⟨true, CellType.Empty, false⟩, ⟨true, CellType.Adjacent 1, false⟩,
    ⟨true, CellType.Mine, false⟩]]

/-- A 5 by 1 all-Empty board whose cell `(1, 0)` is already uncovered. -/
def gapBoard : Board := uncoverAt (create_blank_board 5 1) (1, 0)

/-- A finished 1 by 1 game: its single cell is a covered mine. -/
def sampleWonGame : Game :=
  ⟨[[⟨true, CellType.Mine, false⟩]], 1, 1, 1, (0, 0), true, false⟩

/-- A 1 by 1 game whose mine count field disagrees with its board: the
single cell is an uncovered non-mine, yet `num_mines = 1`. -/
def sampleMismatchGame : Game :=
  ⟨[[⟨false, CellType.Empty, false⟩]], 1, 1, 1, (0, 0), true, false⟩

/-- A touched 1 by 1 game whose selected cell is already uncovered. -/
def sampleUncoveredGame : Game :=
  ⟨[[⟨false, CellType.Empty, false⟩]], 0, 1, 1, (0, 0), true, false⟩

/-- A beginner-sized game with the cursor in the bottom-left corner. -/
def sampleNineGame : Game :=
  ⟨create_blank_board 9 9, 10, 9, 9, (0, 0), false, false⟩

/-- A 3 by 3 game with more excluded cells than remaining space for its
mine. -/
def sampleTinyGame : Game :=
  ⟨create_blank_board 3 3, 1, 3, 3, (1, 1), false, false⟩

/-- A covered 1 by 3 row whose right cell is a mine. -/
def sampleRowMineBoard : Board :=
  setKind (create_blank_board 3 1) (2, 0) CellType.Mine

/-! ### Basic board access lemmas -/

theorem remove_succ (fuel : Nat) (b : Board) (c : Nat × Nat) :
    remove_surrounding_empty_cells (fuel + 1) b c =
      (get_surrounding_cells b c).foldl (floodStep fuel) b := rfl


theorem getElem?_isSome_iff {α : Type} (l : List α) (i : Nat) :
    (l[i]?).isSome = true ↔ i < l.length := by
  rw [Option.isSome_iff_exists]
  constructor
  · rintro ⟨a, ha⟩
    by_contra hc
    rw [List.getElem?_eq_none_iff.mpr (by omega)] at ha
    exact Option.noConfusion ha
  · intro h
    exact ⟨l[i], List.getElem?_eq_getElem h⟩

theorem lt_of_getElem?_some {α : Type} {l : List α} {i : Nat} {a : α}
    (h : l[i]? = some a) : i < l.length := by
  by_contra hc
  rw [List.getElem?_eq_none_iff.mpr (by omega)] at h
  exact Option.noConfusion h

theorem cell_exists_eq_isSome (b : Board) (p : Nat × Nat) :
    cell_exists b p = ((b[p.2]?.getD [])[p.1]?).isSome := by
  unfold cell_exists
  cases b[p.2]? with
  | none => rfl
  | some row => rfl

theorem cellAt_def (b : Board) (p : Nat × Nat) :
    cellAt b p = ((b[p.2]?.getD [])[p.1]?).getD blankCell := by
  unfold cellAt
  rw [List.getD_eq_getElem?_getD, List.getD_eq_getElem?_getD]

theorem cellAt_not_exists {b : Board} {p : Nat × Nat}
    (hex : cell_exists b p = false) : cellAt b p = blankCell := by
  rw [cell_exists_eq_isSome] at hex
  rw [cellAt_def]
  cases hq : (b[p.2]?.getD [])[p.1]? with
  | none => rfl
  | some c =>
    rw [hq] at hex
    exact absurd hex (by simp)

theorem cell_exists_iff {b : Board} {w h : Nat} (hwf : wf b w h) (p : Nat × Nat) :
    cell_exists b p = true ↔ inBounds w h p := by
  obtain ⟨hlen, hrow⟩ := hwf
  rw [cell_exists_eq_isSome, getElem?_isSome_iff]
  cases hb : b[p.2]? with
  | none =>
    rw [List.getElem?_eq_none_iff] at hb
    simp only [Option.getD_none, List.length_nil, inBounds]
    omega
  | some row =>
    have hlt : p.2 < b.length := lt_of_getElem?_some hb
    have hw : row.length = w := hrow row (List.getElem?_mem hb)
    simp only [Option.getD_some, inBounds]
    omega

theorem cell_exists_false_of_not {b : Board} {w h : Nat} (hwf : wf b w h) {p : Nat × Nat}
    (hp : ¬ inBounds w h p) : cell_exists b p = false := by
  rcases hb : cell_exists b p with _ | _
  · rfl
  · exact absurd ((cell_exists_iff hwf p).mp hb) hp

theorem cell_exists_of_inBounds {b : Board} {w h : Nat} (hwf : wf b w h) {p : Nat × Nat}
    (hp : inBounds w h p) : cell_exists b p = true :=
  (cell_exists_iff hwf p).mpr hp

/-- When the target cell exists, `modifyCell` rewrites exactly that cell. -/
theorem cellAt_modifyCell_self {b : Board} {p : Nat × Nat} (f : Cell → Cell)
    (hex : cell_exists b p = true) : cellAt (modifyCell b p f) p = f (cellAt b p) := by
  rw [cell_exists_eq_isSome] at hex
  cases hb : b[p.2]? with
  | none =>
    rw [hb] at hex
    exact absurd hex (by simp)
  | some row =>
    rw [hb] at hex
    rw [Option.getD_some, getElem?_isSome_iff] at hex
    have hy : p.2 < b.length := lt_of_getElem?_some hb
    have hrowD : b.getD p.2 [] = row := by
      rw [List.getD_eq_getElem?_getD, hb]; rfl
    unfold modifyCell
    rw [cellAt_def, hrowD]
    rw [List.getElem?_set_eq (by omega)]
    simp only [Option.getD_some]
    rw [List.getElem?_set_eq (by omega)]
    rfl

theorem cellAt_modifyCell_ne {b : Board} {p : Nat × Nat} (f : Cell → Cell)
    {q : Nat × Nat} (hne : p ≠ q) : cellAt (modifyCell b p f) q = cellAt b q := by
  unfold modifyCell
  rw [cellAt_def, cellAt_def b q]
  rcases eq_or_ne p.2 q.2 with hy | hy
  · have hx : p.1 ≠ q.1 := by
      intro hx
      exact hne (Prod.ext hx hy)
    rcases Nat.lt_or_ge p.2 b.length with hlt | hge
    · rw [hy, List.getElem?_set_eq (by omega)]
      rw [← hy]
      have hrowD : b.getD p.2 [] = b[p.2]?.getD [] := List.getD_eq_getElem?_getD ..
      rw [hrowD]
      simp only [Option.getD_some]
      rw [List.getElem?_set_ne hx]
    · rw [List.set_eq_of_length_le (by omega)]
  · rw [List.getElem?_set_ne hy]

theorem cell_exists_modifyCell (b : Board) (p : Nat × Nat) (f : Cell → Cell)
    (q : Nat × Nat) : cell_exists (modifyCell b p f) q = cell_exists b q := by
  rw [cell_exists_eq_isSome, cell_exists_eq_isSome]
  unfold modifyCell
  rcases eq_or_ne p.2 q.2 with hy | hy
  · rcases Nat.lt_or_ge p.2 b.length with hlt | hge
    · rw [hy, List.getElem?_set_eq (by omega), ← hy]
      have hrowD : b.getD p.2 [] = b[p.2]?.getD [] := List.getD_eq_getElem?_getD ..
      rw [hrowD]
      simp only [Option.getD_some]
      rcases hq : ((b[p.2]?).getD [])[q.1]? with _ | c
      · rw [List.getElem?_eq_none_iff] at hq
        rw [List.getElem?_eq_none_iff.mpr (by rw [List.length_set]; omega)]
      · have := lt_of_getElem?_some hq
        rw [List.getElem?_eq_getElem (l := ((b[p.2]?).getD []).set p.1 _)
          (by rw [List.length_set]; omega)]
        rw [List.getElem?_eq_getElem this] at hq
        rfl
    · rw [List.set_eq_of_length_le (by omega)]
  · rw [List.getElem?_set_ne hy]

theorem length_modifyCell (b : Board) (p : Nat × Nat) (f : Cell → Cell) :
    (modifyCell b p f).length = b.length := List.length_set ..

theorem set_self_eq {α : Type} (l : List α) (i : Nat) (h : i < l.length) :
    l.set i l[i] = l := by
  apply List.ext_getElem?
  intro n
  rcases eq_or_ne i n with rfl | hne
  · rw [List.getElem?_set_eq (by omega), List.getElem?_eq_getElem h]
  · rw [List.getElem?_set_ne hne]

/-- Modifying a cell that does not exist leaves the board unchanged. -/
theorem modifyCell_not_exists {b : Board} {p : Nat × Nat} (f : Cell → Cell)
    (hex : cell_exists b p = false) : modifyCell b p f = b := by
  rw [cell_exists_eq_isSome] at hex
  unfold modifyCell
  cases hb : b[p.2]? with
  | none =>
    rw [List.getElem?_eq_none_iff] at hb
    exact List.set_eq_of_length_le (by omega)
  | some row =>
    rw [hb, Option.getD_some] at hex
    have hx : row.length ≤ p.1 := by
      by_contra hc
      rw [(getElem?_isSome_iff row p.1).mpr (by omega)] at hex
      exact Bool.noConfusion hex
    have hy : p.2 < b.length := lt_of_getElem?_some hb
    have hrowD : b.getD p.2 [] = row := by
      rw [List.getD_eq_getElem?_getD, hb]; rfl
    rw [hrowD, List.set_eq_of_length_le hx]
    have hrow : b[p.2] = row := by
      have h2 := List.getElem?_eq_getElem hy
      rw [hb] at h2
      exact (Option.some_inj.mp h2.symm)
    rw [← hrow]
    exact set_self_eq b p.2 hy

/-- Case summary for `modifyCell`. -/
theorem cellAt_modifyCell (b : Board) (p : Nat × Nat) (f : Cell → Cell) (q : Nat × Nat) :
    cellAt (modifyCell b p f) q =
      if p = q ∧ cell_exists b p = true then f (cellAt b p) else cellAt b q := by
  rcases Classical.em (p = q) with rfl | hne
  · rcases hex : cell_exists b p with _ | _
    · rw [modifyCell_not_exists f hex]
      simp
    · rw [cellAt_modifyCell_self f hex]
      simp
  · rw [cellAt_modifyCell_ne f hne]
    simp [hne]

theorem setKind_covered_marked (b : Board) (p : Nat × Nat) (k : CellType) (q : Nat × Nat) :
    (cellAt (setKind b p k) q).covered = (cellAt b q).covered ∧
      (cellAt (setKind b p k) q).marked = (cellAt b q).marked := by
  unfold setKind
  rw [cellAt_modifyCell]
  split
  · next h => rw [← h.1]; exact ⟨rfl, rfl⟩
  · exact ⟨rfl, rfl⟩

theorem uncoverAt_kind (b : Board) (p : Nat × Nat) (q : Nat × Nat) :
    (cellAt (uncoverAt b p) q).cell_type = (cellAt b q).cell_type := by
  unfold uncoverAt
  rw [cellAt_modifyCell]
  split
  · next h => rw [← h.1]
  · rfl

theorem uncoverAt_cell_exists (b : Board) (p q : Nat × Nat) :
    cell_exists (uncoverAt b p) q = cell_exists b q :=
  cell_exists_modifyCell ..

theorem setKind_cell_exists (b : Board) (p : Nat × Nat) (k : CellType) (q : Nat × Nat) :
    cell_exists (setKind b p k) q = cell_exists b q :=
  cell_exists_modifyCell ..

theorem cellAt_uncoverAt_self {b : Board} {p : Nat × Nat} (hex : cell_exists b p = true) :
    cellAt (uncoverAt b p) p =
      { covered := false, cell_type := (cellAt b p).cell_type, marked := false } := by
  unfold uncoverAt
  rw [cellAt_modifyCell_self _ hex]

theorem cellAt_uncoverAt_ne {b : Board} {p q : Nat × Nat} (hne : p ≠ q) :
    cellAt (uncoverAt b p) q = cellAt b q :=
  cellAt_modifyCell_ne _ hne


/-! ### Preservation relations of the flood fill -/

/-- The reveal engine never changes the grid shape nor any cell kind. -/
def boardLike (b b2 : Board) : Prop :=
  (∀ q, cell_exists b2 q = cell_exists b q) ∧
    ∀ q, (cellAt b2 q).cell_type = (cellAt b q).cell_type

/-- The reveal engine never re-covers nor re-marks a cell. -/
def uncovMono (b b2 : Board) : Prop :=
  ∀ q, ((cellAt b q).covered = false → (cellAt b2 q).covered = false) ∧
    ((cellAt b q).marked = false → (cellAt b2 q).marked = false)

/-- The combined invariant carried through the flood fill. -/
def floodInv (b b2 : Board) : Prop := boardLike b b2 ∧ uncovMono b b2

theorem floodInv_refl (b : Board) : floodInv b b :=
  ⟨⟨fun _ => rfl, fun _ => rfl⟩, fun _ => ⟨id, id⟩⟩

theorem floodInv_trans {a b c : Board} (h1 : floodInv a b) (h2 : floodInv b c) :
    floodInv a c := by
  obtain ⟨⟨he1, hk1⟩, hm1⟩ := h1
  obtain ⟨⟨he2, hk2⟩, hm2⟩ := h2
  refine ⟨⟨fun q => (he2 q).trans (he1 q), fun q => (hk2 q).trans (hk1 q)⟩, fun q => ?_⟩
  exact ⟨fun h => (hm2 q).1 ((hm1 q).1 h), fun h => (hm2 q).2 ((hm1 q).2 h)⟩

theorem floodInv_uncoverAt (b : Board) (p : Nat × Nat) : floodInv b (uncoverAt b p) := by
  refine ⟨⟨fun q => uncoverAt_cell_exists b p q, fun q => uncoverAt_kind b p q⟩, fun q => ?_⟩
  unfold uncoverAt
  rw [cellAt_modifyCell]
  split
  · exact ⟨fun _ => rfl, fun _ => rfl⟩
  · exact ⟨id, id⟩

theorem surrounding_eq_of_boardLike {b b2 : Board} (h : boardLike b b2) (c : Nat × Nat) :
    get_surrounding_cells b2 c = get_surrounding_cells b c := by
  unfold get_surrounding_cells
  refine List.filterMap_congr (fun d _ => ?_)
  simp only [h.1, h.2]

theorem foldl_trans_rel {α : Type} (P : Board → Board → Prop)
    (hrefl : ∀ b, P b b) (htrans : ∀ a b c, P a b → P b c → P a c)
    (step : Board → α → Board) (hstep : ∀ b x, P b (step b x)) :
    ∀ (l : List α) (b : Board), P b (l.foldl step b) := by
  intro l
  induction l with
  | nil => exact fun b => hrefl b
  | cons x l ih => exact fun b => htrans _ _ _ (hstep b x) (ih (step b x))

theorem flood_floodInv (fuel : Nat) :
    (∀ b c, floodInv b (remove_surrounding_empty_cells fuel b c)) ∧
      ∀ (l : List (Nat × Nat × CellType)) b, floodInv b (l.foldl (floodStep fuel) b) := by
  induction fuel with
  | zero =>
    have hR : ∀ b c, floodInv b (remove_surrounding_empty_cells 0 b c) :=
      fun b _ => floodInv_refl b
    refine ⟨hR, foldl_trans_rel _ floodInv_refl (fun _ _ _ => floodInv_trans) _ ?_⟩
    intro b q
    unfold floodStep
    split
    · exact floodInv_trans (floodInv_uncoverAt ..) (hR ..)
    · exact floodInv_uncoverAt ..
  | succ fuel ih =>
    have hR : ∀ b c, floodInv b (remove_surrounding_empty_cells (fuel + 1) b c) := by
      intro b c
      rw [remove_succ]
      exact ih.2 _ b
    refine ⟨hR, foldl_trans_rel _ floodInv_refl (fun _ _ _ => floodInv_trans) _ ?_⟩
    intro b q
    unfold floodStep
    split
    · exact floodInv_trans (floodInv_uncoverAt ..) (hR ..)
    · exact floodInv_uncoverAt ..

theorem remove_floodInv (fuel : Nat) (b : Board) (c : Nat × Nat) :
    floodInv b (remove_surrounding_empty_cells fuel b c) :=
  (flood_floodInv fuel).1 b c

/-! ### Covered-cell counting -/

theorem countP_set_le (p : Cell → Bool) (l : List Cell) (i : Nat) (a : Cell)
    (ha : p a = false) : (l.set i a).countP p ≤ l.countP p := by
  induction l generalizing i with
  | nil => simp
  | cons x t iht =>
    cases i with
    | zero =>
      simp only [List.set_cons_zero, List.countP_cons, ha, Bool.false_eq_true, if_false]
      omega
    | succ i =>
      simp only [List.set_cons_succ, List.countP_cons]
      have := iht i
      omega

theorem countP_set_lt (p : Cell → Bool) (l : List Cell) (i : Nat) (a : Cell)
    (ha : p a = false) (hi : i < l.length) (hold : p (l.getD i blankCell) = true) :
    (l.set i a).countP p < l.countP p := by
  induction l generalizing i with
  | nil => simp at hi
  | cons x t iht =>
    cases i with
    | zero =>
      simp only [List.getD_cons_zero] at hold
      simp only [List.set_cons_zero, List.countP_cons, ha, hold, Bool.false_eq_true, if_false,
        if_true]
      omega
    | succ i =>
      simp only [List.getD_cons_succ] at hold
      simp only [List.length_cons] at hi
      simp only [List.set_cons_succ, List.countP_cons]
      have := iht i (by omega) hold
      omega

theorem sum_set_le (l : List Nat) (i : Nat) (a : Nat)
    (h : a ≤ l.getD i 0) : (l.set i a).sum ≤ l.sum := by
  induction l generalizing i with
  | nil => simp
  | cons x t iht =>
    cases i with
    | zero =>
      simp only [List.getD_cons_zero] at h
      simp only [List.set_cons_zero, List.sum_cons]
      omega
    | succ i =>
      simp only [List.getD_cons_succ] at h
      simp only [List.set_cons_succ, List.sum_cons]
      have := iht i h
      omega

theorem sum_set_lt (l : List Nat) (i : Nat) (a : Nat) (hi : i < l.length)
    (h : a < l.getD i 0) : (l.set i a).sum < l.sum := by
  induction l generalizing i with
  | nil => simp at hi
  | cons x t iht =>
    cases i with
    | zero =>
      simp only [List.getD_cons_zero] at h
      simp only [List.set_cons_zero, List.sum_cons]
      omega
    | succ i =>
      simp only [List.getD_cons_succ] at h
      simp only [List.length_cons] at hi
      simp only [List.set_cons_succ, List.sum_cons]
      have := iht i (by omega) h
      omega


theorem coveredCount_modifyCell_le (b : Board) (p : Nat × Nat) (f : Cell → Cell)
    (hf : ∀ c, (f c).covered = false) :
    coveredCount (modifyCell b p f) ≤ coveredCount b := by
  rcases hex : cell_exists b p with _ | _
  · rw [modifyCell_not_exists f hex]
  · have hy : p.2 < b.length := by
      by_contra hc
      rw [cell_exists_eq_isSome,
        (List.getElem?_eq_none_iff (l := b) (n := p.2)).mpr (by omega)] at hex
      exact absurd hex (by simp)
    have hrow0 : b[p.2]?.getD [] = b[p.2] := by
      rw [List.getElem?_eq_getElem hy]
      rfl
    have hrowD : b.getD p.2 [] = b[p.2] := by
      rw [List.getD_eq_getElem?_getD, hrow0]
    have hmap : (b.map (fun row => row.countP (fun c => c.covered))).getD p.2 0 =
        (b[p.2]).countP (fun c => c.covered) := by
      rw [List.getD_eq_getElem?_getD, List.getElem?_map, List.getElem?_eq_getElem hy]
      rfl
    unfold modifyCell coveredCount
    rw [List.map_set]
    apply sum_set_le
    rw [hmap, hrowD]
    exact countP_set_le _ _ _ _ (hf _)

theorem coveredCount_modifyCell_lt (b : Board) (p : Nat × Nat) (f : Cell → Cell)
    (hf : ∀ c, (f c).covered = false) (hex : cell_exists b p = true)
    (hcov : (cellAt b p).covered = true) :
    coveredCount (modifyCell b p f) < coveredCount b := by
  have hy : p.2 < b.length := by
    by_contra hc
    rw [cell_exists_eq_isSome,
      (List.getElem?_eq_none_iff (l := b) (n := p.2)).mpr (by omega)] at hex
    exact absurd hex (by simp)
  have hrow0 : b[p.2]?.getD [] = b[p.2] := by
    rw [List.getElem?_eq_getElem hy]
    rfl
  have hrowD : b.getD p.2 [] = b[p.2] := by
    rw [List.getD_eq_getElem?_getD, hrow0]
  have hx : p.1 < (b[p.2]).length := by
    by_contra hc
    rw [cell_exists_eq_isSome, hrow0, List.getElem?_eq_none_iff.mpr (by omega)] at hex
    exact absurd hex (by simp)
  have hmap : (b.map (fun row => row.countP (fun c => c.covered))).getD p.2 0 =
      (b[p.2]).countP (fun c => c.covered) := by
    rw [List.getD_eq_getElem?_getD, List.getElem?_map, List.getElem?_eq_getElem hy]
    rfl
  unfold modifyCell coveredCount
  rw [List.map_set]
  apply sum_set_lt _ _ _ (by rw [List.length_map]; omega)
  rw [hmap, hrowD]
  apply countP_set_lt _ _ _ _ (hf _) hx
  have hcell : cellAt b p = (b[p.2]).getD p.1 blankCell := by
    unfold cellAt
    rw [hrowD]
  rw [← hcell]
  exact hcov

theorem coveredCount_uncoverAt_le (b : Board) (p : Nat × Nat) :
    coveredCount (uncoverAt b p) ≤ coveredCount b :=
  coveredCount_modifyCell_le b p _ (fun _ => rfl)

theorem coveredCount_uncoverAt_lt (b : Board) (p : Nat × Nat)
    (hex : cell_exists b p = true) (hcov : (cellAt b p).covered = true) :
    coveredCount (uncoverAt b p) < coveredCount b :=
  coveredCount_modifyCell_lt b p _ (fun _ => rfl) hex hcov

theorem flood_coveredCount (fuel : Nat) :
    (∀ b c, coveredCount (remove_surrounding_empty_cells fuel b c) ≤ coveredCount b) ∧
      ∀ (l : List (Nat × Nat × CellType)) b,
        coveredCount (l.foldl (floodStep fuel) b) ≤ coveredCount b := by
  have hrefl : ∀ b : Board, coveredCount b ≤ coveredCount b := fun _ => le_rfl
  have htrans : ∀ a b c : Board, coveredCount b ≤ coveredCount a →
      coveredCount c ≤ coveredCount b → coveredCount c ≤ coveredCount a :=
    fun _ _ _ h1 h2 => le_trans h2 h1
  induction fuel with
  | zero =>
    have hR : ∀ b c, coveredCount (remove_surrounding_empty_cells 0 b c) ≤ coveredCount b :=
      fun b _ => le_rfl
    refine ⟨hR, foldl_trans_rel (fun b b2 => coveredCount b2 ≤ coveredCount b)
      hrefl htrans _ ?_⟩
    intro b q
    unfold floodStep
    split
    · exact le_trans (hR ..) (coveredCount_uncoverAt_le ..)
    · exact coveredCount_uncoverAt_le ..
  | succ fuel ih =>
    have hR : ∀ b c,
        coveredCount (remove_surrounding_empty_cells (fuel + 1) b c) ≤ coveredCount b := by
      intro b c
      rw [remove_succ]
      exact ih.2 _ b
    refine ⟨hR, foldl_trans_rel (fun b b2 => coveredCount b2 ≤ coveredCount b)
      hrefl htrans _ ?_⟩
    intro b q
    unfold floodStep
    split
    · exact le_trans (hR ..) (coveredCount_uncoverAt_le ..)
    · exact coveredCount_uncoverAt_le ..


theorem floodStep_floodInv (fuel : Nat) (b : Board) (q : Nat × Nat × CellType) :
    floodInv b (floodStep fuel b q) := by
  unfold floodStep
  split
  · exact floodInv_trans (floodInv_uncoverAt ..) (remove_floodInv ..)
  · exact floodInv_uncoverAt ..

theorem floodStep_coveredCount_le (fuel : Nat) (b : Board) (q : Nat × Nat × CellType) :
    coveredCount (floodStep fuel b q) ≤ coveredCount b := by
  unfold floodStep
  split
  · exact le_trans ((flood_coveredCount fuel).1 ..) (coveredCount_uncoverAt_le ..)
  · exact coveredCount_uncoverAt_le ..

/-- Every entry of `get_surrounding_cells` is an existing cell carrying its
current kind. -/
theorem mem_surrounding {b : Board} {c : Nat × Nat} {q : Nat × Nat × CellType}
    (hq : q ∈ get_surrounding_cells b c) :
    cell_exists b (q.1, q.2.1) = true ∧ (cellAt b (q.1, q.2.1)).cell_type = q.2.2 := by
  unfold get_surrounding_cells at hq
  rw [List.mem_filterMap] at hq
  obtain ⟨d, _, hd⟩ := hq
  by_cases hex : cell_exists b (castUsize ((c.1 : Int) + d.1), castUsize ((c.2 : Int) + d.2)) = true
  · rw [if_pos hex] at hd
    obtain rfl := Option.some_inj.mp hd
    exact ⟨hex, rfl⟩
  · rw [if_neg hex] at hd
    exact Option.noConfusion hd

/-- Fuel stabilisation: two runs of the flood fill with enough fuel agree.
The measure is the number of covered cells, which strictly decreases at
each recursive call. -/
theorem remove_stable_aux :
    ∀ k f1 f2 (b : Board) (c : Nat × Nat), coveredCount b ≤ k →
      coveredCount b < f1 → coveredCount b < f2 →
      remove_surrounding_empty_cells f1 b c = remove_surrounding_empty_cells f2 b c := by
  intro k
  induction k using Nat.strong_induction_on with
  | _ k ih =>
    intro f1 f2 b c hk h1 h2
    obtain ⟨n, rfl⟩ : ∃ n, f1 = n + 1 := ⟨f1 - 1, by omega⟩
    obtain ⟨m, rfl⟩ : ∃ m, f2 = m + 1 := ⟨f2 - 1, by omega⟩
    rw [remove_succ, remove_succ]
    have key : ∀ (l : List (Nat × Nat × CellType)) (b2 : Board),
        coveredCount b2 ≤ coveredCount b →
        (∀ q ∈ l, cell_exists b2 (q.1, q.2.1) = true) →
        l.foldl (floodStep n) b2 = l.foldl (floodStep m) b2 := by
      intro l
      induction l with
      | nil => intro b2 _ _; rfl
      | cons q l ihl =>
        intro b2 hb2 hexl
        simp only [List.foldl_cons]
        have hstep : floodStep n b2 q = floodStep m b2 q := by
          unfold floodStep
          split
          · next h =>
            have hlt : coveredCount (uncoverAt b2 (q.1, q.2.1)) < coveredCount b2 :=
              coveredCount_uncoverAt_lt _ _ (hexl q (by simp)) h.2
            exact ih (k - 1) (by omega) n m _ _ (by omega) (by omega) (by omega)
          · rfl
        rw [hstep]
        apply ihl
        · exact le_trans (floodStep_coveredCount_le m b2 q) hb2
        · intro r hr
          rw [(floodStep_floodInv m b2 q).1.1]
          exact hexl r (by simp [hr])
    apply key
    · exact le_rfl
    · exact fun q hq => (mem_surrounding hq).1

/-- The fuel-indexed approximations of the recursive flood fill stabilise
at fuel `coveredCount + 1`. -/
theorem remove_fuel_stable (b : Board) (c : Nat × Nat) (fuel : Nat)
    (h : coveredCount b < fuel) :
    remove_surrounding_empty_cells fuel b c =
      remove_surrounding_empty_cells (coveredCount b + 1) b c :=
  remove_stable_aux (coveredCount b) fuel (coveredCount b + 1) b c le_rfl h (by omega)


theorem floodStep_uncovers (fuel : Nat) (b : Board) (q : Nat × Nat × CellType)
    (hex : cell_exists b (q.1, q.2.1) = true) :
    (cellAt (floodStep fuel b q) (q.1, q.2.1)).covered = false ∧
      (cellAt (floodStep fuel b q) (q.1, q.2.1)).marked = false := by
  unfold floodStep
  split
  · have h0 := cellAt_uncoverAt_self hex
    have hm := (remove_floodInv fuel (uncoverAt b (q.1, q.2.1)) (q.1, q.2.1)).2 (q.1, q.2.1)
    rw [h0] at hm
    exact ⟨hm.1 rfl, hm.2 rfl⟩
  · rw [cellAt_uncoverAt_self hex]
    exact ⟨rfl, rfl⟩

/-- Every cell listed in the worklist ends the fold uncovered and
unmarked, whatever its kind. -/
theorem foldl_uncovers (fuel : Nat) :
    ∀ (l : List (Nat × Nat × CellType)) (b : Board),
      (∀ q ∈ l, cell_exists b (q.1, q.2.1) = true) →
      ∀ q ∈ l, (cellAt (l.foldl (floodStep fuel) b) (q.1, q.2.1)).covered = false ∧
        (cellAt (l.foldl (floodStep fuel) b) (q.1, q.2.1)).marked = false := by
  intro l
  induction l with
  | nil => intro b _ q hq; exact absurd hq (by simp)
  | cons r l ihl =>
    intro b hex q hq
    simp only [List.foldl_cons]
    rcases List.mem_cons.mp hq with rfl | hql
    · have h1 := floodStep_uncovers fuel b q (hex q (by simp))
      have hm := ((flood_floodInv fuel).2 l (floodStep fuel b q)).2 (q.1, q.2.1)
      exact ⟨hm.1 h1.1, hm.2 h1.2⟩
    · apply ihl (floodStep fuel b r) _ q hql
      intro s hs
      rw [(floodStep_floodInv fuel b r).1.1]
      exact hex s (by simp [hs])

/-- After the flood fill runs at an Empty cell with at least one unit of
fuel, every existing neighbour of that cell is uncovered and unmarked. -/
theorem remove_uncovers_nbrs (fuel : Nat) (b : Board) (c : Nat × Nat) (hfuel : 1 ≤ fuel) :
    ∀ q ∈ get_surrounding_cells b c,
      (cellAt (remove_surrounding_empty_cells fuel b c) (q.1, q.2.1)).covered = false ∧
      (cellAt (remove_surrounding_empty_cells fuel b c) (q.1, q.2.1)).marked = false := by
  obtain ⟨n, rfl⟩ : ∃ n, fuel = n + 1 := ⟨fuel - 1, by omega⟩
  rw [remove_succ]
  exact foldl_uncovers n _ b (fun q hq => (mem_surrounding hq).1)


/-- Depth-first-search completeness, inner induction.  If a covered
`Empty` cell ends the flood fill uncovered, then all of its existing
neighbours also end it uncovered. -/
theorem flood_part1 : ∀ fuel,
    (∀ (b : Board) (c : Nat × Nat), coveredCount b < fuel →
      ∀ p, (cellAt b p).cell_type = CellType.Empty → (cellAt b p).covered = true →
        (cellAt (remove_surrounding_empty_cells fuel b c) p).covered = false →
        ∀ q ∈ get_surrounding_cells b p,
          (cellAt (remove_surrounding_empty_cells fuel b c) (q.1, q.2.1)).covered = false) ∧
    ∀ (l : List (Nat × Nat × CellType)) (b : Board), coveredCount b ≤ fuel →
      (∀ q ∈ l, cell_exists b (q.1, q.2.1) = true ∧
        (cellAt b (q.1, q.2.1)).cell_type = q.2.2) →
      ∀ p, (cellAt b p).cell_type = CellType.Empty → (cellAt b p).covered = true →
        (cellAt (l.foldl (floodStep fuel) b) p).covered = false →
        ∀ q ∈ get_surrounding_cells b p,
          (cellAt (l.foldl (floodStep fuel) b) (q.1, q.2.1)).covered = false := by
  intro fuel
  induction fuel using Nat.strong_induction_on with
  | _ fuel ih =>
    have hR : ∀ (b : Board) (c : Nat × Nat), coveredCount b < fuel →
        ∀ p, (cellAt b p).cell_type = CellType.Empty → (cellAt b p).covered = true →
          (cellAt (remove_surrounding_empty_cells fuel b c) p).covered = false →
          ∀ q ∈ get_surrounding_cells b p,
            (cellAt (remove_surrounding_empty_cells fuel b c) (q.1, q.2.1)).covered = false := by
      intro b c hfc p hpk hpc hres q hq
      obtain ⟨n, rfl⟩ : ∃ n, fuel = n + 1 := ⟨fuel - 1, by omega⟩
      rw [remove_succ] at hres ⊢
      exact (ih n (by omega)).2 _ b (by omega)
        (fun s hs => mem_surrounding hs) p hpk hpc hres q hq
    refine ⟨hR, ?_⟩
    intro l
    induction l with
    | nil =>
      intro b _ _ p _ hpc hres q _
      simp only [List.foldl_nil] at hres
      rw [hpc] at hres
      exact Bool.noConfusion hres
    | cons r l ihl =>
      intro b hb hl p hpk hpc hres q hq
      simp only [List.foldl_cons] at hres ⊢
      by_cases hcond : r.2.2 = CellType.Empty ∧ (cellAt b (r.1, r.2.1)).covered = true
      · have hstep : floodStep fuel b r =
            remove_surrounding_empty_cells fuel (uncoverAt b (r.1, r.2.1)) (r.1, r.2.1) := by
          unfold floodStep
          rw [if_pos hcond]
        rw [hstep] at hres ⊢
        have hexr : cell_exists b (r.1, r.2.1) = true := (hl r (by simp)).1
        have hclt : coveredCount (uncoverAt b (r.1, r.2.1)) < coveredCount b :=
          coveredCount_uncoverAt_lt _ _ hexr hcond.2
        have hcb1 : coveredCount (remove_surrounding_empty_cells fuel
            (uncoverAt b (r.1, r.2.1)) (r.1, r.2.1)) ≤
            coveredCount (uncoverAt b (r.1, r.2.1)) := (flood_coveredCount fuel).1 ..
        have hinv1 : floodInv b (remove_surrounding_empty_cells fuel
            (uncoverAt b (r.1, r.2.1)) (r.1, r.2.1)) :=
          floodInv_trans (floodInv_uncoverAt ..) (remove_floodInv ..)
        have hinvG : floodInv (remove_surrounding_empty_cells fuel
            (uncoverAt b (r.1, r.2.1)) (r.1, r.2.1))
            (l.foldl (floodStep fuel) (remove_surrounding_empty_cells fuel
              (uncoverAt b (r.1, r.2.1)) (r.1, r.2.1))) := (flood_floodInv fuel).2 ..
        rcases eq_or_ne (r.1, r.2.1) p with hpr | hpne
        · have hnb := remove_uncovers_nbrs fuel (uncoverAt b (r.1, r.2.1)) (r.1, r.2.1)
            (by omega)
          have hsurr : get_surrounding_cells (uncoverAt b (r.1, r.2.1)) (r.1, r.2.1) =
              get_surrounding_cells b p := by
            rw [surrounding_eq_of_boardLike (floodInv_uncoverAt b (r.1, r.2.1)).1, hpr]
          rw [hsurr] at hnb
          exact (hinvG.2 (q.1, q.2.1)).1 (hnb q hq).1
        · by_cases hpb1 : (cellAt (remove_surrounding_empty_cells fuel
              (uncoverAt b (r.1, r.2.1)) (r.1, r.2.1)) p).covered = false
          · have hcov1 : (cellAt (uncoverAt b (r.1, r.2.1)) p).covered = true := by
              rw [cellAt_uncoverAt_ne hpne]
              exact hpc
            have hk1 : (cellAt (uncoverAt b (r.1, r.2.1)) p).cell_type = CellType.Empty := by
              rw [uncoverAt_kind]
              exact hpk
            have hres1 := hR _ (r.1, r.2.1) (by omega) p hk1 hcov1 hpb1
            have hsurr2 : get_surrounding_cells (uncoverAt b (r.1, r.2.1)) p =
                get_surrounding_cells b p :=
              surrounding_eq_of_boardLike (floodInv_uncoverAt ..).1 p
            rw [hsurr2] at hres1
            exact (hinvG.2 (q.1, q.2.1)).1 (hres1 q hq)
          · have hpb1' : (cellAt (remove_surrounding_empty_cells fuel
                (uncoverAt b (r.1, r.2.1)) (r.1, r.2.1)) p).covered = true := by
              rcases hcc : (cellAt (remove_surrounding_empty_cells fuel
                  (uncoverAt b (r.1, r.2.1)) (r.1, r.2.1)) p).covered with _ | _
              · exact absurd hcc hpb1
              · rfl
            have hpk1 : (cellAt (remove_surrounding_empty_cells fuel
                (uncoverAt b (r.1, r.2.1)) (r.1, r.2.1)) p).cell_type = CellType.Empty := by
              rw [hinv1.1.2]
              exact hpk
            have hl1 : ∀ s ∈ l, cell_exists (remove_surrounding_empty_cells fuel
                (uncoverAt b (r.1, r.2.1)) (r.1, r.2.1)) (s.1, s.2.1) = true ∧
                (cellAt (remove_surrounding_empty_cells fuel
                  (uncoverAt b (r.1, r.2.1)) (r.1, r.2.1)) (s.1, s.2.1)).cell_type = s.2.2 := by
              intro s hs
              rw [hinv1.1.1, hinv1.1.2]
              exact hl s (by simp [hs])
            have hmain := ihl (remove_surrounding_empty_cells fuel
              (uncoverAt b (r.1, r.2.1)) (r.1, r.2.1)) (by omega) hl1 p hpk1 hpb1' hres q
            have hsurr2 : get_surrounding_cells (remove_surrounding_empty_cells fuel
                (uncoverAt b (r.1, r.2.1)) (r.1, r.2.1)) p = get_surrounding_cells b p :=
              surrounding_eq_of_boardLike hinv1.1 p
            rw [hsurr2] at hmain
            exact hmain hq
      · have hstep : floodStep fuel b r = uncoverAt b (r.1, r.2.1) := by
          unfold floodStep
          rw [if_neg hcond]
        rw [hstep] at hres ⊢
        rcases eq_or_ne (r.1, r.2.1) p with hpr | hpne
        · exfalso
          apply hcond
          refine ⟨?_, ?_⟩
          · rw [← (hl r (by simp)).2, hpr]
            exact hpk
          · rw [hpr]
            exact hpc
        · have hl1 : ∀ s ∈ l, cell_exists (uncoverAt b (r.1, r.2.1)) (s.1, s.2.1) = true ∧
              (cellAt (uncoverAt b (r.1, r.2.1)) (s.1, s.2.1)).cell_type = s.2.2 := by
            intro s hs
            rw [(floodInv_uncoverAt ..).1.1, (floodInv_uncoverAt ..).1.2]
            exact hl s (by simp [hs])
          have hk1 : (cellAt (uncoverAt b (r.1, r.2.1)) p).cell_type = CellType.Empty := by
            rw [uncoverAt_kind]
            exact hpk
          have hcov1 : (cellAt (uncoverAt b (r.1, r.2.1)) p).covered = true := by
            rw [cellAt_uncoverAt_ne hpne]
            exact hpc
          have hmain := ihl (uncoverAt b (r.1, r.2.1))
            (le_trans (coveredCount_uncoverAt_le ..) hb) hl1 p hk1 hcov1 hres q
          have hsurr2 : get_surrounding_cells (uncoverAt b (r.1, r.2.1)) p =
              get_surrounding_cells b p :=
            surrounding_eq_of_boardLike (floodInv_uncoverAt ..).1 p
          rw [hsurr2] at hmain
          exact hmain hq


theorem surroundingCoords_eq_of_boardLike {b b2 : Board} (h : boardLike b b2)
    (p : Nat × Nat) : surroundingCoords b2 p = surroundingCoords b p := by
  unfold surroundingCoords
  rw [surrounding_eq_of_boardLike h]

theorem reachEmpty_iff_of_boardLike {b b2 : Board} (h : boardLike b b2)
    (c p : Nat × Nat) : reachEmpty b2 c p ↔ reachEmpty b c p := by
  unfold reachEmpty
  constructor
  · refine Relation.ReflTransGen.mono ?_
    intro u v hs
    obtain ⟨h1, h2⟩ := hs
    rw [surroundingCoords_eq_of_boardLike h] at h1
    rw [h.2] at h2
    exact ⟨h1, h2⟩
  · refine Relation.ReflTransGen.mono ?_
    intro u v hs
    obtain ⟨h1, h2⟩ := hs
    rw [← surroundingCoords_eq_of_boardLike h] at h1
    rw [← h.2] at h2
    exact ⟨h1, h2⟩

theorem uncoverAt_covered_cases {b : Board} {r p : Nat × Nat}
    (h : (cellAt (uncoverAt b r) p).covered = false) :
    p = r ∨ (cellAt b p).covered = false := by
  rcases eq_or_ne r p with rfl | hne
  · exact Or.inl rfl
  · rw [cellAt_uncoverAt_ne hne] at h
    exact Or.inr h

/-- Soundness of the flood fill: a cell it uncovers is an existing
neighbour of some cell of the Empty component of the origin. -/
theorem flood_sound : ∀ fuel,
    (∀ (b : Board) (c : Nat × Nat) (p : Nat × Nat),
      (cellAt (remove_surrounding_empty_cells fuel b c) p).covered = false →
      (cellAt b p).covered = false ∨
        ∃ e, reachEmpty b c e ∧ p ∈ surroundingCoords b e) ∧
    ∀ (l : List (Nat × Nat × CellType)) (b : Board) (c : Nat × Nat),
      (∀ s ∈ l, (s.1, s.2.1) ∈ surroundingCoords b c ∧
        (cellAt b (s.1, s.2.1)).cell_type = s.2.2) →
      ∀ p, (cellAt (l.foldl (floodStep fuel) b) p).covered = false →
        (cellAt b p).covered = false ∨
          ∃ e, reachEmpty b c e ∧ p ∈ surroundingCoords b e := by
  intro fuel
  induction fuel using Nat.strong_induction_on with
  | _ fuel ih =>
    have hRS : ∀ (b : Board) (c : Nat × Nat) (p : Nat × Nat),
        (cellAt (remove_surrounding_empty_cells fuel b c) p).covered = false →
        (cellAt b p).covered = false ∨
          ∃ e, reachEmpty b c e ∧ p ∈ surroundingCoords b e := by
      intro b c p hres
      cases fuel with
      | zero => exact Or.inl hres
      | succ n =>
        rw [remove_succ] at hres
        refine (ih n (by omega)).2 _ b c ?_ p hres
        intro s hs
        refine ⟨?_, (mem_surrounding hs).2⟩
        unfold surroundingCoords
        exact List.mem_map.mpr ⟨s, hs, rfl⟩
    refine ⟨hRS, ?_⟩
    intro l
    induction l with
    | nil =>
      intro b c _ p hres
      simp only [List.foldl_nil] at hres
      exact Or.inl hres
    | cons r l ihl =>
      intro b c hsub p hres
      simp only [List.foldl_cons] at hres
      have hrc : (r.1, r.2.1) ∈ surroundingCoords b c := (hsub r (by simp)).1
      have hinvS : floodInv b (floodStep fuel b r) := floodStep_floodInv ..
      have hsub1 : ∀ s ∈ l, (s.1, s.2.1) ∈ surroundingCoords (floodStep fuel b r) c ∧
          (cellAt (floodStep fuel b r) (s.1, s.2.1)).cell_type = s.2.2 := by
        intro s hs
        rw [surroundingCoords_eq_of_boardLike hinvS.1, hinvS.1.2]
        exact hsub s (by simp [hs])
      have hmain := ihl (floodStep fuel b r) c hsub1 p hres
      rcases hmain with hcov1 | ⟨e, he, hpe⟩
      · -- p was already uncovered after the head step
        by_cases hcond : r.2.2 = CellType.Empty ∧ (cellAt b (r.1, r.2.1)).covered = true
        · have hstep : floodStep fuel b r =
              remove_surrounding_empty_cells fuel (uncoverAt b (r.1, r.2.1)) (r.1, r.2.1) := by
            unfold floodStep
            rw [if_pos hcond]
          rw [hstep] at hcov1
          rcases hRS _ _ p hcov1 with hcov2 | ⟨e, he, hpe⟩
          · rcases uncoverAt_covered_cases hcov2 with rfl | hcov3
            · exact Or.inr ⟨c, Relation.ReflTransGen.refl, hrc⟩
            · exact Or.inl hcov3
          · -- within the recursive call, reachable from the head cell
            have hu : floodInv b (uncoverAt b (r.1, r.2.1)) := floodInv_uncoverAt ..
            rw [reachEmpty_iff_of_boardLike hu.1] at he
            rw [surroundingCoords_eq_of_boardLike hu.1] at hpe
            refine Or.inr ⟨e, ?_, hpe⟩
            refine Relation.ReflTransGen.head ⟨hrc, ?_⟩ he
            rw [(hsub r (by simp)).2]
            exact hcond.1
        · have hstep : floodStep fuel b r = uncoverAt b (r.1, r.2.1) := by
            unfold floodStep
            rw [if_neg hcond]
          rw [hstep] at hcov1
          rcases uncoverAt_covered_cases hcov1 with rfl | hcov3
          · exact Or.inr ⟨c, Relation.ReflTransGen.refl, hrc⟩
          · exact Or.inl hcov3
      · rw [reachEmpty_iff_of_boardLike hinvS.1] at he
        rw [surroundingCoords_eq_of_boardLike hinvS.1] at hpe
        exact Or.inr ⟨e, he, hpe⟩


theorem mem_surroundingCoords {b : Board} {p q : Nat × Nat}
    (hq : q ∈ surroundingCoords b p) :
    cell_exists b q = true ∧ ∃ s ∈ get_surrounding_cells b p, (s.1, s.2.1) = q := by
  unfold surroundingCoords at hq
  rw [List.mem_map] at hq
  obtain ⟨s, hs, hsq⟩ := hq
  refine ⟨?_, s, hs, hsq⟩
  rw [← hsq]
  exact (mem_surrounding hs).1

theorem covered_everywhere {b : Board} {w h : Nat} (hwf : wf b w h)
    (hcov : allCoveredBoard b w h) (p : Nat × Nat) : (cellAt b p).covered = true := by
  by_cases hp : inBounds w h p
  · exact hcov p.1 hp.1 p.2 hp.2
  · rw [cellAt_not_exists (cell_exists_false_of_not hwf hp)]
    rfl

theorem reachEmpty_kind {b : Board} {c p : Nat × Nat}
    (hck : (cellAt b c).cell_type = CellType.Empty) (hre : reachEmpty b c p) :
    (cellAt b p).cell_type = CellType.Empty := by
  unfold reachEmpty at hre
  induction hre with
  | refl => exact hck
  | tail _ hstep _ => exact hstep.2

theorem reachEmpty_inBounds {b : Board} {w h : Nat} {c p : Nat × Nat} (hwf : wf b w h)
    (hc : inBounds w h c) (hre : reachEmpty b c p) : inBounds w h p := by
  unfold reachEmpty at hre
  induction hre with
  | refl => exact hc
  | tail _ hstep _ =>
    exact (cell_exists_iff hwf _).mp (mem_surroundingCoords hstep.1).1

/-- Exact effect of `uncover_cell` at an `Empty` cell of a fully covered
board: the uncovered region is precisely the Empty component of the origin
together with the existing neighbours of that component. -/
theorem uncover_cell_exact (b : Board) (w h : Nat) (c : Nat × Nat)
    (hwf : wf b w h) (hcov : allCoveredBoard b w h) (hc : inBounds w h c)
    (hck : (cellAt b c).cell_type = CellType.Empty) :
    ∀ p, (cellAt (uncover_cell b c) p).covered = false ↔
      (reachEmpty b c p ∨ ∃ e, reachEmpty b c e ∧ p ∈ surroundingCoords b e) := by
  have hex : cell_exists b c = true := cell_exists_of_inBounds hwf hc
  have hk1 : (cellAt (uncoverAt b c) c).cell_type = CellType.Empty := by
    rw [uncoverAt_kind]
    exact hck
  have huc : uncover_cell b c = remove_surrounding_empty_cells
      (coveredCount (uncoverAt b c) + 1) (uncoverAt b c) c := by
    unfold uncover_cell
    rw [if_pos hk1]
  have hinv1 : floodInv b (uncoverAt b c) := floodInv_uncoverAt ..
  have hinvR : floodInv (uncoverAt b c) (remove_surrounding_empty_cells
      (coveredCount (uncoverAt b c) + 1) (uncoverAt b c) c) := remove_floodInv ..
  have hcovc : (cellAt (uncover_cell b c) c).covered = false := by
    rw [huc]
    refine (hinvR.2 c).1 ?_
    rw [cellAt_uncoverAt_self hex]
  have hbase : ∀ q ∈ surroundingCoords b c, (cellAt (uncover_cell b c) q).covered = false := by
    intro q hq
    obtain ⟨_, s, hs, hsq⟩ := mem_surroundingCoords hq
    rw [huc, ← hsq]
    have hsurr : get_surrounding_cells (uncoverAt b c) c = get_surrounding_cells b c :=
      surrounding_eq_of_boardLike hinv1.1 c
    exact (remove_uncovers_nbrs _ _ _ (by omega) s (by rw [hsurr]; exact hs)).1
  have key : ∀ p, reachEmpty b c p →
      (cellAt (uncover_cell b c) p).covered = false ∧
        ∀ q ∈ surroundingCoords b p, (cellAt (uncover_cell b c) q).covered = false := by
    intro p hp
    unfold reachEmpty at hp
    induction hp with
    | refl => exact ⟨hcovc, hbase⟩
    | tail hab hstep ihp =>
      next e p' =>
      have hpcov : (cellAt (uncover_cell b c) p').covered = false := (ihp.2) _ hstep.1
      refine ⟨hpcov, ?_⟩
      rcases eq_or_ne p' c with rfl | hne
      · exact hbase
      · have hpin : inBounds w h p' := (cell_exists_iff hwf _).mp
          (mem_surroundingCoords hstep.1).1
        have hcb : (cellAt b p').covered = true := hcov p'.1 hpin.1 p'.2 hpin.2
        have hcb1 : (cellAt (uncoverAt b c) p').covered = true := by
          rw [cellAt_uncoverAt_ne (Ne.symm hne)]
          exact hcb
        have hk1p : (cellAt (uncoverAt b c) p').cell_type = CellType.Empty := by
          rw [uncoverAt_kind]
          exact hstep.2
        have hresp : (cellAt (remove_surrounding_empty_cells
            (coveredCount (uncoverAt b c) + 1) (uncoverAt b c) c) p').covered = false := by
          rw [← huc]
          exact hpcov
        have hnb := (flood_part1 (coveredCount (uncoverAt b c) + 1)).1 (uncoverAt b c) c
          (by omega) p' hk1p hcb1 hresp
        intro q hq
        obtain ⟨_, s, hs, hsq⟩ := mem_surroundingCoords hq
        have hsurr : get_surrounding_cells (uncoverAt b c) p' = get_surrounding_cells b p' :=
          surrounding_eq_of_boardLike hinv1.1 p'
        rw [huc, ← hsq]
        exact hnb s (by rw [hsurr]; exact hs)
  intro p
  constructor
  · intro hres
    rw [huc] at hres
    rcases (flood_sound (coveredCount (uncoverAt b c) + 1)).1 _ _ p hres with hcov1 | ⟨e, he, hpe⟩
    · rcases uncoverAt_covered_cases hcov1 with rfl | hcov2
      · exact Or.inl Relation.ReflTransGen.refl
      · rw [covered_everywhere hwf hcov p] at hcov2
        exact Bool.noConfusion hcov2
    · rw [reachEmpty_iff_of_boardLike hinv1.1] at he
      rw [surroundingCoords_eq_of_boardLike hinv1.1] at hpe
      exact Or.inr ⟨e, he, hpe⟩
  · intro hrhs
    rcases hrhs with hre | ⟨e, he, hpe⟩
    · exact (key p hre).1
    · exact (key e he).2 p hpe

/-- Kinds on the frontier: a cell bordering the component that is not in
the component is an `Adjacent` cell, under the adjacency invariant. -/
theorem uncover_cell_border (b : Board) (w h : Nat) (c : Nat × Nat)
    (hwf : wf b w h) (hmine : emptyNoMine b w h) (hc : inBounds w h c)
    (hck : (cellAt b c).cell_type = CellType.Empty) :
    ∀ p, (∃ e, reachEmpty b c e ∧ p ∈ surroundingCoords b e) → ¬ reachEmpty b c p →
      ∃ n, (cellAt b p).cell_type = CellType.Adjacent n := by
  intro p ⟨e, he, hpe⟩ hnre
  have hek : (cellAt b e).cell_type = CellType.Empty := reachEmpty_kind hck he
  have hein : inBounds w h e := reachEmpty_inBounds hwf hc he
  have hnm : (cellAt b p).cell_type ≠ CellType.Mine :=
    hmine e.1 hein.1 e.2 hein.2 (by rw [show ((e.1, e.2) : Nat × Nat) = e from rfl]; exact hek)
      p hpe
  have hne : (cellAt b p).cell_type ≠ CellType.Empty := by
    intro hpk
    exact hnre (Relation.ReflTransGen.tail he ⟨hpe, hpk⟩)
  cases hpk : (cellAt b p).cell_type with
  | Empty => exact absurd hpk hne
  | Adjacent n => exact ⟨n, rfl⟩
  | Mine => exact absurd hpk hnm


/-! ### Counting lemmas for the win check -/


theorem count_uncovered_row_some (row : List Cell) (n : Nat)
    (h : count_uncovered_row row = some n) :
    n = row.countP (fun c => !c.covered) ∧
      ∀ c ∈ row, c.covered = false → c.cell_type ≠ CellType.Mine := by
  induction row generalizing n with
  | nil =>
    unfold count_uncovered_row at h
    obtain rfl := Option.some_inj.mp h
    exact ⟨rfl, by simp⟩
  | cons c r ihr =>
    unfold count_uncovered_row at h
    by_cases hcv : c.covered = false
    · rw [if_pos hcv] at h
      by_cases hm : c.cell_type = CellType.Mine
      · rw [if_pos hm] at h
        exact Option.noConfusion h
      · rw [if_neg hm] at h
        cases hr : count_uncovered_row r with
        | none =>
          rw [hr] at h
          exact Option.noConfusion h
        | some k =>
          rw [hr] at h
          obtain rfl := Option.some_inj.mp h
          obtain ⟨hk, hall⟩ := ihr k hr
          constructor
          · rw [List.countP_cons, hcv]
            simp only [Bool.not_false, if_true]
            omega
          · intro d hd
            rcases List.mem_cons.mp hd with rfl | hdr
            · exact fun _ => hm
            · exact hall d hdr
    · have hcv' : c.covered = true := by
        rcases hc2 : c.covered with _ | _
        · exact absurd hc2 hcv
        · rfl
      rw [if_neg (by rw [hcv']; simp)] at h
      obtain ⟨hk, hall⟩ := ihr n h
      constructor
      · rw [List.countP_cons, hcv']
        simp only [Bool.not_true, Bool.false_eq_true, if_false]
        omega
      · intro d hd
        rcases List.mem_cons.mp hd with rfl | hdr
        · intro hdc
          rw [hdc] at hcv'
          exact Bool.noConfusion hcv'
        · exact hall d hdr



theorem count_uncovered_some (b : Board) (n : Nat)
    (h : count_uncovered b = some n) :
    n = (b.map (fun row => row.countP (fun c => !c.covered))).sum ∧
      ∀ row ∈ b, ∀ c ∈ row, c.covered = false → c.cell_type ≠ CellType.Mine := by
  induction b generalizing n with
  | nil =>
    unfold count_uncovered at h
    obtain rfl := Option.some_inj.mp h
    exact ⟨rfl, by simp⟩
  | cons row rest ihb =>
    unfold count_uncovered at h
    cases hrow : count_uncovered_row row with
    | none =>
      rw [hrow] at h
      exact Option.noConfusion h
    | some a =>
      cases hrest : count_uncovered rest with
      | none =>
        rw [hrow, hrest] at h
        exact Option.noConfusion h
      | some k =>
        rw [hrow, hrest] at h
        obtain rfl := Option.some_inj.mp h
        obtain ⟨ha, hallr⟩ := count_uncovered_row_some row a hrow
        obtain ⟨hk, hallb⟩ := ihb k hrest
        constructor
        · simp only [List.map_cons, List.sum_cons]
          omega
        · intro r hr
          rcases List.mem_cons.mp hr with rfl | hrr
          · exact hallr
          · exact hallb r hrr

/-- Row-level counting balance. -/
theorem row_count_balance (row : List Cell)
    (h : ∀ c ∈ row, c.covered = false → c.cell_type ≠ CellType.Mine) :
    row.countP (fun c => !c.covered) +
        row.countP (fun c => decide (c.cell_type = CellType.Mine)) ≤ row.length ∧
      (row.countP (fun c => !c.covered) +
          row.countP (fun c => decide (c.cell_type = CellType.Mine)) = row.length ↔
        ∀ c ∈ row, c.cell_type ≠ CellType.Mine → c.covered = false) := by
  induction row with
  | nil => simp
  | cons x r ihr =>
    have hx := h x (by simp)
    have hr := ihr (fun c hc hc2 => h c (by simp [hc]) hc2)
    simp only [List.countP_cons, List.length_cons, List.forall_mem_cons]
    rcases hxc : x.covered with _ | _
    · have hxm : x.cell_type ≠ CellType.Mine := hx hxc
      simp [hxm]
      constructor
      · omega
      · constructor
        · intro he
          exact hr.2.mp (by omega)
        · intro hq
          have := hr.2.mpr hq
          omega
    · by_cases hxm : x.cell_type = CellType.Mine
      · simp [hxm]
        constructor
        · omega
        · constructor
          · intro he
            exact hr.2.mp (by omega)
          · intro hq
            have := hr.2.mpr hq
            omega
      · simp [hxm]
        constructor
        · omega
        · have hle := hr.1
          omega

theorem board_count_balance (b : Board)
    (h : ∀ row ∈ b, ∀ c ∈ row, c.covered = false → c.cell_type ≠ CellType.Mine) :
    (b.map (fun row => row.countP (fun c => !c.covered))).sum + mineCount b ≤
        (b.map List.length).sum ∧
      ((b.map (fun row => row.countP (fun c => !c.covered))).sum + mineCount b =
          (b.map List.length).sum ↔
        ∀ row ∈ b, ∀ c ∈ row, c.cell_type ≠ CellType.Mine → c.covered = false) := by
  induction b with
  | nil => simp [mineCount]
  | cons row rest ihb =>
    have hrow := row_count_balance row (h row (by simp))
    have hrest := ihb (fun r hr => h r (by simp [hr]))
    unfold mineCount at hrest ⊢
    simp only [List.map_cons, List.sum_cons, List.forall_mem_cons]
    constructor
    · omega
    · constructor
      · intro he
        refine ⟨hrow.2.mp (by omega), hrest.2.mp (by omega)⟩
      · intro hcon
        have h1 := hrow.2.mpr hcon.1
        have h2 := hrest.2.mpr hcon.2
        omega

theorem sum_lengths_of_wf {b : Board} {w h : Nat} (hwf : wf b w h) :
    (b.map List.length).sum = h * w := by
  obtain ⟨hlen, hrow⟩ := hwf
  have hmap : b.map List.length = List.replicate h w := by
    rw [List.eq_replicate_iff]
    refine ⟨by rw [List.length_map, hlen], ?_⟩
    intro a ha
    rw [List.mem_map] at ha
    obtain ⟨r, hr, rfl⟩ := ha
    exact hrow r hr
  rw [hmap]
  exact List.sum_const_nat h w



theorem count_uncovered_row_none (row : List Cell)
    (h : count_uncovered_row row = none) :
    ∃ c ∈ row, c.covered = false ∧ c.cell_type = CellType.Mine := by
  induction row with
  | nil => exact Option.noConfusion h
  | cons c r ihr =>
    unfold count_uncovered_row at h
    by_cases hcv : c.covered = false
    · rw [if_pos hcv] at h
      by_cases hm : c.cell_type = CellType.Mine
      · exact ⟨c, by simp, hcv, hm⟩
      · rw [if_neg hm] at h
        cases hr : count_uncovered_row r with
        | none =>
          obtain ⟨d, hd, hprop⟩ := ihr hr
          exact ⟨d, by simp [hd], hprop⟩
        | some k =>
          rw [hr] at h
          exact Option.noConfusion h
    · rw [if_neg hcv] at h
      obtain ⟨d, hd, hprop⟩ := ihr h
      exact ⟨d, by simp [hd], hprop⟩

theorem count_uncovered_none (b : Board)
    (h : count_uncovered b = none) :
    ∃ row ∈ b, ∃ c ∈ row, c.covered = false ∧ c.cell_type = CellType.Mine := by
  induction b with
  | nil => exact Option.noConfusion h
  | cons row rest ihb =>
    unfold count_uncovered at h
    cases hrow : count_uncovered_row row with
    | none =>
      obtain ⟨c, hcel, hprop⟩ := count_uncovered_row_none row hrow
      exact ⟨row, by simp, c, hcel, hprop⟩
    | some a =>
      rw [hrow] at h
      cases hrest : count_uncovered rest with
      | none =>
        obtain ⟨r, hr, hc⟩ := ihb hrest
        exact ⟨r, by simp [hr], hc⟩
      | some k =>
        rw [hrest] at h
        exact Option.noConfusion h

theorem has_won_iff (g : Game) (hwf : wf g.data g.width g.height)
    (hm : mineCount g.data = g.num_mines) :
    has_won g = true ↔
      ∀ row ∈ g.data, ∀ c ∈ row,
        (c.cell_type ≠ CellType.Mine → c.covered = false) ∧
        (c.cell_type = CellType.Mine → c.covered = true) := by
  cases hc : count_uncovered g.data with
  | none =>
    have hfalse : has_won g = false := by
      unfold has_won
      rw [hc]
    rw [hfalse]
    simp only [Bool.false_eq_true, false_iff]
    intro hall
    obtain ⟨row, hrow, c, hcel, hcov, hmine⟩ := count_uncovered_none g.data hc
    have := (hall row hrow c hcel).2 hmine
    rw [this] at hcov
    exact Bool.noConfusion hcov
  | some n =>
    have heq : has_won g = decide (n = g.width * g.height - g.num_mines) := by
      unfold has_won
      rw [hc]
    obtain ⟨hn, hnomine⟩ := count_uncovered_some g.data n hc
    have hbal := board_count_balance g.data hnomine
    have hlen := sum_lengths_of_wf hwf
    have hN : (g.data.map List.length).sum = g.width * g.height := by
      rw [hlen, Nat.mul_comm]
    rw [heq, decide_eq_true_iff]
    constructor
    · intro he
      have hq := hbal.2.mp (by omega)
      intro row hrow c hcel
      refine ⟨fun hmm => hq row hrow c hcel hmm, fun hmm => ?_⟩
      rcases hcov : c.covered with _ | _
      · exact absurd hmm (hnomine row hrow c hcel hcov)
      · rfl
    · intro hall
      have hq : ∀ row ∈ g.data, ∀ c ∈ row, c.cell_type ≠ CellType.Mine → c.covered = false :=
        fun row hr c hcel => (hall row hr c hcel).1
      have := hbal.2.mpr hq
      omega



/-! ### Mine placement and adjacency computation -/


theorem rpos_some_get {l : List Nat} {v i : Nat} (h : rpos l v = some i) :
    l[i]? = some v := by
  induction l generalizing i with
  | nil => exact Option.noConfusion h
  | cons a t iht =>
    unfold rpos at h
    cases hr : rpos t v with
    | some j =>
      rw [hr] at h
      obtain rfl := Option.some_inj.mp h
      rw [List.getElem?_cons_succ]
      exact iht hr
    | none =>
      rw [hr] at h
      by_cases ha : a = v
      · rw [if_pos ha] at h
        obtain rfl := Option.some_inj.mp h
        rw [ha]
        exact List.getElem?_cons_zero
      · rw [if_neg ha] at h
        exact Option.noConfusion h

theorem not_mem_eraseIdx_self {l : List Nat} {i v : Nat} (hnd : l.Nodup)
    (hv : l[i]? = some v) : v ∉ l.eraseIdx i := by
  induction l generalizing i with
  | nil => exact absurd hv (by simp)
  | cons a t iht =>
    cases i with
    | zero =>
      rw [List.getElem?_cons_zero] at hv
      obtain rfl := Option.some_inj.mp hv
      simp only [List.eraseIdx_cons_zero]
      exact (List.nodup_cons.mp hnd).1
    | succ i =>
      rw [List.getElem?_cons_succ] at hv
      have hvt : t[i]? = some v := hv
      simp only [List.eraseIdx_cons_succ]
      intro hmem
      rcases List.mem_cons.mp hmem with rfl | hmem2
      · exact (List.nodup_cons.mp hnd).1 (List.getElem?_mem hvt)
      · exact iht (List.nodup_cons.mp hnd).2 hvt hmem2

theorem removeIdxOf_some {l : List Nat} {v : Nat} {l2 : List Nat}
    (h : removeIdxOf l v = some l2) :
    List.Sublist l2 l ∧ (l.Nodup → v ∉ l2) := by
  unfold removeIdxOf at h
  cases hr : rpos l v with
  | none =>
    rw [hr] at h
    exact Option.noConfusion h
  | some i =>
    rw [hr] at h
    obtain rfl := Option.some_inj.mp h
    exact ⟨List.eraseIdx_sublist l i, fun hnd => not_mem_eraseIdx_self hnd (rpos_some_get hr)⟩

theorem foldlM_remove_spec (w : Nat) :
    ∀ (l : List (Nat × Nat × CellType)) (init : List Nat), init.Nodup →
      ∀ out, l.foldlM (fun acc q => removeIdxOf acc (q.2.1 * w + q.1)) init = some out →
        List.Sublist out init ∧ out.Nodup ∧ ∀ q ∈ l, (q.2.1 * w + q.1) ∉ out := by
  intro l
  induction l with
  | nil =>
    intro init hnd out h
    obtain rfl := Option.some_inj.mp h
    exact ⟨List.Sublist.refl _, hnd, by simp⟩
  | cons q l ihl =>
    intro init hnd out h
    rw [List.foldlM_cons] at h
    cases hq : removeIdxOf init (q.2.1 * w + q.1) with
    | none =>
      rw [hq] at h
      exact Option.noConfusion h
    | some acc =>
      rw [hq] at h
      obtain ⟨hsub, hnotm⟩ := removeIdxOf_some hq
      have hndacc : acc.Nodup := List.Sublist.nodup hsub hnd
      obtain ⟨hsub2, hnd2, hall⟩ := ihl acc hndacc out h
      refine ⟨List.Sublist.trans hsub2 hsub, hnd2, ?_⟩
      intro r hr
      rcases List.mem_cons.mp hr with rfl | hrl
      · intro hmem
        exact hnotm hnd (List.Sublist.subset hsub2 hmem)
      · exact hall r hrl

theorem mine_indices_spec {b : Board} {w : Nat} {sel : Nat × Nat} {numCells : Nat}
    {ind : List Nat} (h : mine_indices b w sel numCells = some ind) :
    List.Sublist ind ((List.range numCells).eraseIdx (sel.2 * w + sel.1)) ∧ ind.Nodup ∧
      ∀ q ∈ get_surrounding_cells b sel, (q.2.1 * w + q.1) ∉ ind := by
  unfold mine_indices at h
  have hnd : ((List.range numCells).eraseIdx (sel.2 * w + sel.1)).Nodup :=
    List.Sublist.nodup (List.eraseIdx_sublist ..) (List.nodup_range ..)
  exact foldlM_remove_spec w _ _ hnd ind h

theorem safe_not_mem_indices {numCells k : Nat} (hk : k < numCells) :
    k ∉ (List.range numCells).eraseIdx k := by
  apply not_mem_eraseIdx_self (List.nodup_range ..)
  rw [List.getElem?_range hk]



theorem foldl_setKind_src (w h : Nat) :
    ∀ (l : List Nat) (b : Board) (p : Nat × Nat),
      (cellAt (l.foldl (fun acc i => setKind acc (i % w, i / h) CellType.Mine) b) p).cell_type =
          CellType.Mine →
        (cellAt b p).cell_type = CellType.Mine ∨ ∃ i ∈ l, p = (i % w, i / h) := by
  intro l
  induction l with
  | nil => exact fun b p hp => Or.inl hp
  | cons i l ihl =>
    intro b p hp
    simp only [List.foldl_cons] at hp
    rcases ihl _ p hp with hb | ⟨j, hj, rfl⟩
    · unfold setKind at hb
      rw [cellAt_modifyCell] at hb
      split at hb
      · next hc => exact Or.inr ⟨i, by simp, hc.1.symm⟩
      · exact Or.inl hb
    · exact Or.inr ⟨j, by simp [hj], rfl⟩

theorem foldl_setKind_covered (w h : Nat) (l : List Nat) (b : Board) (p : Nat × Nat) :
    (cellAt (l.foldl (fun acc i => setKind acc (i % w, i / h) CellType.Mine) b) p).covered =
        (cellAt b p).covered ∧
      (cellAt (l.foldl (fun acc i => setKind acc (i % w, i / h) CellType.Mine) b) p).marked =
        (cellAt b p).marked ∧
      cell_exists (l.foldl (fun acc i => setKind acc (i % w, i / h) CellType.Mine) b) p =
        cell_exists b p := by
  induction l generalizing b with
  | nil => exact ⟨rfl, rfl, rfl⟩
  | cons i l ihl =>
    simp only [List.foldl_cons]
    obtain ⟨h1, h2, h3⟩ := ihl (setKind b (i % w, i / h) CellType.Mine)
    obtain ⟨h4, h5⟩ := setKind_covered_marked b (i % w, i / h) CellType.Mine p
    exact ⟨h1.trans h4, h2.trans h5, h3.trans (setKind_cell_exists ..)⟩

theorem place_mines_some {w h m : Nat} {ind : List Nat} {b out : Board}
    (hp : place_mines w h m ind b = some out) :
    out = (ind.take m).foldl (fun acc i => setKind acc (i % w, i / h) CellType.Mine) b ∧
      m ≤ ind.length := by
  unfold place_mines at hp
  split at hp
  · next hle => exact ⟨(Option.some_inj.mp hp).symm, hle⟩
  · exact Option.noConfusion hp

/-- `compute_adjacency_step` changes no covered flag, no marked flag, no
cell existence, and the mine-status of no cell. -/
theorem adjStep_preserves (b : Board) (r p : Nat × Nat) :
    (cellAt (compute_adjacency_step b r) p).covered = (cellAt b p).covered ∧
      (cellAt (compute_adjacency_step b r) p).marked = (cellAt b p).marked ∧
      cell_exists (compute_adjacency_step b r) p = cell_exists b p ∧
      ((cellAt (compute_adjacency_step b r) p).cell_type = CellType.Mine ↔
        (cellAt b p).cell_type = CellType.Mine) := by
  unfold compute_adjacency_step
  split
  · next hk =>
    split
    · next hn =>
      obtain ⟨h1, h2⟩ := setKind_covered_marked b r (CellType.Adjacent (adjacent_count b r)) p
      refine ⟨h1, h2, setKind_cell_exists .., ?_⟩
      unfold setKind
      rw [cellAt_modifyCell]
      split
      · next hc =>
        rw [← hc.1, hk]
        simp
      · exact Iff.rfl
    · exact ⟨rfl, rfl, rfl, Iff.rfl⟩
  · exact ⟨rfl, rfl, rfl, Iff.rfl⟩

theorem adjStep_ne {b : Board} {r p : Nat × Nat} (hne : r ≠ p) :
    cellAt (compute_adjacency_step b r) p = cellAt b p := by
  unfold compute_adjacency_step
  split
  · split
    · exact cellAt_modifyCell_ne _ hne
    · rfl
  · rfl

theorem adj_fold_preserves (l : List (Nat × Nat)) (b : Board) (p : Nat × Nat) :
    (cellAt (l.foldl compute_adjacency_step b) p).covered = (cellAt b p).covered ∧
      (cellAt (l.foldl compute_adjacency_step b) p).marked = (cellAt b p).marked ∧
      cell_exists (l.foldl compute_adjacency_step b) p = cell_exists b p ∧
      ((cellAt (l.foldl compute_adjacency_step b) p).cell_type = CellType.Mine ↔
        (cellAt b p).cell_type = CellType.Mine) := by
  induction l generalizing b with
  | nil => exact ⟨rfl, rfl, rfl, Iff.rfl⟩
  | cons r l ihl =>
    simp only [List.foldl_cons]
    obtain ⟨h1, h2, h3, h4⟩ := ihl (compute_adjacency_step b r)
    obtain ⟨h5, h6, h7, h8⟩ := adjStep_preserves b r p
    exact ⟨h1.trans h5, h2.trans h6, h3.trans h7, h4.trans h8⟩

theorem adj_fold_untouched : ∀ (l : List (Nat × Nat)) (b : Board) (p : Nat × Nat),
    p ∉ l → cellAt (l.foldl compute_adjacency_step b) p = cellAt b p := by
  intro l
  induction l with
  | nil => exact fun b p _ => rfl
  | cons r l ihl =>
    intro b p hp
    simp only [List.foldl_cons]
    rw [ihl _ p (fun hm => hp (by simp [hm]))]
    exact adjStep_ne (fun he => hp (by simp [he]))

/-- The neighbouring-mine count only depends on cell existence and
mine-status. -/
theorem adjacent_count_congr {b b2 : Board}
    (hex : ∀ q, cell_exists b2 q = cell_exists b q)
    (hm : ∀ q, (cellAt b2 q).cell_type = CellType.Mine ↔ (cellAt b q).cell_type = CellType.Mine)
    (p : Nat × Nat) : adjacent_count b2 p = adjacent_count b p := by
  unfold adjacent_count get_surrounding_cells
  suffices hgen : ∀ ds : List (Int × Int),
      ((ds.filterMap (fun d =>
        let q : Nat × Nat := (castUsize ((p.1 : Int) + d.1), castUsize ((p.2 : Int) + d.2))
        if cell_exists b2 q then some (q.1, q.2, (cellAt b2 q).cell_type) else none)).countP
          (fun q => decide (q.2.2 = CellType.Mine))) =
      ((ds.filterMap (fun d =>
        let q : Nat × Nat := (castUsize ((p.1 : Int) + d.1), castUsize ((p.2 : Int) + d.2))
        if cell_exists b q then some (q.1, q.2, (cellAt b q).cell_type) else none)).countP
          (fun q => decide (q.2.2 = CellType.Mine))) by
    exact hgen directions
  intro ds
  induction ds with
  | nil => rfl
  | cons d ds ihd =>
    simp only [List.filterMap_cons]
    rw [hex]
    by_cases hcex : cell_exists b (castUsize ((p.1 : Int) + d.1), castUsize ((p.2 : Int) + d.2)) = true
    · rw [if_pos hcex, if_pos hcex]
      simp only [List.countP_cons]
      rw [ihd]
      congr 1
      by_cases hmm : (cellAt b (castUsize ((p.1 : Int) + d.1), castUsize ((p.2 : Int) + d.2))).cell_type = CellType.Mine
      · have h2m : (cellAt b2 (castUsize ((p.1 : Int) + d.1),
            castUsize ((p.2 : Int) + d.2))).cell_type = CellType.Mine := (hm _).mpr hmm
        rw [if_pos (by simp only [decide_eq_true_eq]; exact h2m),
          if_pos (by simp only [decide_eq_true_eq]; exact hmm)]
      · have h2m : ¬ (cellAt b2 (castUsize ((p.1 : Int) + d.1),
            castUsize ((p.2 : Int) + d.2))).cell_type = CellType.Mine :=
          fun hc => hmm ((hm _).mp hc)
        rw [if_neg (by simp only [decide_eq_true_eq]; exact h2m),
          if_neg (by simp only [decide_eq_true_eq]; exact hmm)]
    · rw [if_neg hcex, if_neg hcex]
      exact ihd




theorem mem_raster {w h x y : Nat} : (x, y) ∈ raster w h ↔ x < w ∧ y < h := by
  unfold raster
  rw [List.mem_flatMap]
  constructor
  · rintro ⟨a, ha, hmem⟩
    rw [List.mem_map] at hmem
    obtain ⟨c, hc, heq⟩ := hmem
    rw [Prod.ext_iff] at heq
    obtain ⟨h1, h2⟩ := heq
    simp only at h1 h2
    subst h1
    subst h2
    exact ⟨List.mem_range.mp hc, List.mem_range.mp ha⟩
  · rintro ⟨hx, hy⟩
    exact ⟨y, List.mem_range.mpr hy, List.mem_map.mpr ⟨x, List.mem_range.mpr hx, rfl⟩⟩

theorem nodup_raster (w h : Nat) : (raster w h).Nodup := by
  unfold raster
  rw [List.nodup_flatMap]
  constructor
  · intro y _
    exact List.Nodup.map (fun a c hac => ((Prod.mk.injEq ..).mp hac).1) (List.nodup_range ..)
  · refine List.Pairwise.imp ?_ (List.pairwise_lt_range ..)
    intro a b hab p hp1 hp2
    rw [List.mem_map] at hp1 hp2
    obtain ⟨x1, _, rfl⟩ := hp1
    obtain ⟨x2, _, heq⟩ := hp2
    rw [Prod.ext_iff] at heq
    simp only at heq
    omega



theorem adj_fold_formula (b0 : Board) :
    ∀ (l : List (Nat × Nat)) (bacc : Board),
      l.Nodup →
      (∀ q, cell_exists bacc q = cell_exists b0 q) →
      (∀ q, (cellAt bacc q).cell_type = CellType.Mine ↔
        (cellAt b0 q).cell_type = CellType.Mine) →
      (∀ q ∈ l, (cellAt bacc q).cell_type = (cellAt b0 q).cell_type) →
      (∀ q ∈ l, cell_exists b0 q = true) →
      ∀ p ∈ l, ((cellAt b0 p).cell_type = CellType.Empty ∨
          (cellAt b0 p).cell_type = CellType.Mine) →
        (cellAt (l.foldl compute_adjacency_step bacc) p).cell_type =
          (if (cellAt b0 p).cell_type = CellType.Mine then CellType.Mine
           else if 0 < adjacent_count b0 p then CellType.Adjacent (adjacent_count b0 p)
           else CellType.Empty) := by
  intro l
  induction l with
  | nil =>
    intro bacc _ _ _ _ _ p hp
    exact absurd hp (by simp)
  | cons r l ihl =>
    intro bacc hnd hex hm huntouched hexist p hp hkinds
    simp only [List.foldl_cons]
    have hndl : l.Nodup := (List.nodup_cons.mp hnd).2
    have hrnotl : r ∉ l := (List.nodup_cons.mp hnd).1
    have hex1 : ∀ q, cell_exists (compute_adjacency_step bacc r) q = cell_exists b0 q :=
      fun q => ((adjStep_preserves bacc r q).2.2.1).trans (hex q)
    have hm1 : ∀ q, (cellAt (compute_adjacency_step bacc r) q).cell_type = CellType.Mine ↔
        (cellAt b0 q).cell_type = CellType.Mine :=
      fun q => ((adjStep_preserves bacc r q).2.2.2).trans (hm q)
    rcases List.mem_cons.mp hp with rfl | hpl
    · rw [adj_fold_untouched l _ p hrnotl]
      have hkacc : (cellAt bacc p).cell_type = (cellAt b0 p).cell_type :=
        huntouched p (by simp)
      have hcnt : adjacent_count bacc p = adjacent_count b0 p := adjacent_count_congr hex hm p
      have hpex : cell_exists bacc p = true := (hex p).trans (hexist p (by simp))
      rcases hkinds with hE | hM
      · rw [if_neg (show ¬ ((cellAt b0 p).cell_type = CellType.Mine) from by rw [hE]; simp)]
        by_cases hn : 0 < adjacent_count b0 p
        · rw [if_pos hn]
          unfold compute_adjacency_step
          rw [if_pos (hkacc.trans hE), if_pos (show 0 < adjacent_count bacc p from hcnt ▸ hn)]
          unfold setKind
          rw [cellAt_modifyCell, if_pos ⟨rfl, hpex⟩, hcnt]
        · rw [if_neg hn]
          unfold compute_adjacency_step
          rw [if_pos (hkacc.trans hE),
            if_neg (show ¬ 0 < adjacent_count bacc p from hcnt ▸ hn)]
          exact hkacc.trans hE
      · rw [if_pos hM]
        unfold compute_adjacency_step
        rw [if_neg (show ¬ ((cellAt bacc p).cell_type = CellType.Empty) from by
          rw [hkacc.trans hM]; simp)]
        exact hkacc.trans hM
    · refine ihl (compute_adjacency_step bacc r) hndl hex1 hm1 ?_
        (fun q hq => hexist q (by simp [hq])) p hpl hkinds
      intro q hq
      have hqr : r ≠ q := fun he => hrnotl (he ▸ hq)
      rw [adjStep_ne hqr]
      exact huntouched q (by simp [hq])

theorem compute_adjacency_formula (w h : Nat) (b : Board) (hwf : wf b w h)
    (hkinds : ∀ p, (cellAt b p).cell_type = CellType.Empty ∨
      (cellAt b p).cell_type = CellType.Mine) :
    ∀ p, inBounds w h p →
      (cellAt (compute_adjacency w h b) p).cell_type =
        (if (cellAt b p).cell_type = CellType.Mine then CellType.Mine
         else if 0 < adjacent_count b p then CellType.Adjacent (adjacent_count b p)
         else CellType.Empty) := by
  intro p hp
  unfold compute_adjacency
  refine adj_fold_formula b (raster w h) b (nodup_raster w h) (fun _ => rfl)
    (fun _ => Iff.rfl) (fun _ _ => rfl) ?_ p ?_ (hkinds p)
  · intro q hq
    have : inBounds w h q := by
      have := mem_raster.mp (show (q.1, q.2) ∈ raster w h from hq)
      exact this
    exact cell_exists_of_inBounds hwf this
  · exact mem_raster.mpr ⟨hp.1, hp.2⟩




theorem wf_create_blank_board (w h : Nat) : wf (create_blank_board w h) w h := by
  unfold wf create_blank_board
  refine ⟨List.length_replicate .., ?_⟩
  intro r hr
  rw [List.eq_of_mem_replicate hr]
  exact List.length_replicate ..

theorem cellAt_create_blank_board (w h : Nat) (p : Nat × Nat) :
    cellAt (create_blank_board w h) p = blankCell := by
  unfold create_blank_board
  rw [cellAt_def]
  cases hrow : (List.replicate h (List.replicate w blankCell))[p.2]? with
  | none => rfl
  | some row =>
    have : row = List.replicate w blankCell := List.eq_of_mem_replicate (List.getElem?_mem hrow)
    subst this
    rw [Option.getD_some]
    cases hc : (List.replicate w blankCell)[p.1]? with
    | none => rfl
    | some c =>
      rw [Option.getD_some]
      exact List.eq_of_mem_replicate (List.getElem?_mem hc)

theorem populate_board_some {shuffle : List Nat → List Nat} {g g' : Game}
    (hpop : populate_board shuffle g = some g') :
    ∃ ind b1, mine_indices g.data g.width g.selection (g.width * g.height) = some ind ∧
      place_mines g.width g.height g.num_mines (shuffle ind) g.data = some b1 ∧
      g' = { g with data := compute_adjacency g.width g.height b1 } := by
  unfold populate_board at hpop
  cases hind : mine_indices g.data g.width g.selection (g.width * g.height) with
  | none =>
    rw [hind] at hpop
    exact Option.noConfusion hpop
  | some ind =>
    rw [hind] at hpop
    simp only [Option.pure_def, Option.bind_eq_bind, Option.some_bind] at hpop
    cases hpl : place_mines g.width g.height g.num_mines (shuffle ind) g.data with
    | none =>
      rw [hpl] at hpop
      exact Option.noConfusion hpop
    | some b1 =>
      rw [hpl] at hpop
      exact ⟨ind, b1, rfl, hpl, (Option.some_inj.mp hpop).symm⟩

/-- `populate_board` only writes cell kinds: the covered and marked flags,
the grid shape, and every other game field are unchanged. -/
theorem populate_board_preserves {shuffle : List Nat → List Nat} {g g' : Game}
    (hpop : populate_board shuffle g = some g') :
    g'.width = g.width ∧ g'.height = g.height ∧ g'.selection = g.selection ∧
      g'.num_mines = g.num_mines ∧ g'.is_touched = g.is_touched ∧
      g'.show_everything = g.show_everything ∧
      (∀ q, cell_exists g'.data q = cell_exists g.data q) ∧
      ∀ q, (cellAt g'.data q).covered = (cellAt g.data q).covered ∧
        (cellAt g'.data q).marked = (cellAt g.data q).marked := by
  obtain ⟨ind, b1, hind, hpl, rfl⟩ := populate_board_some hpop
  obtain ⟨hb1, hle⟩ := place_mines_some hpl
  refine ⟨rfl, rfl, rfl, rfl, rfl, rfl, ?_, ?_⟩
  · intro q
    have h1 := (adj_fold_preserves (raster g.width g.height) b1 q).2.2.1
    have h2 := (foldl_setKind_covered g.width g.height ((shuffle ind).take g.num_mines)
      g.data q).2.2
    unfold compute_adjacency
    rw [h1, hb1]
    exact h2
  · intro q
    have h1 := adj_fold_preserves (raster g.width g.height) b1 q
    have h2 := foldl_setKind_covered g.width g.height ((shuffle ind).take g.num_mines)
      g.data q
    unfold compute_adjacency
    constructor
    · rw [h1.1, hb1]
      exact h2.1
    · rw [h1.2.1, hb1]
      exact h2.2.1

/-- Mines of the populated board originate from taken shuffled indices. -/
theorem populate_board_mine_src {shuffle : List Nat → List Nat} {g g' : Game}
    (hblank : g.data = create_blank_board g.width g.height)
    (hpop : populate_board shuffle g = some g') :
    ∀ p, (cellAt g'.data p).cell_type = CellType.Mine →
      ∃ ind, mine_indices g.data g.width g.selection (g.width * g.height) = some ind ∧
        ∃ i ∈ (shuffle ind).take g.num_mines, p = (i % g.width, i / g.height) := by
  obtain ⟨ind, b1, hind, hpl, rfl⟩ := populate_board_some hpop
  obtain ⟨hb1, hle⟩ := place_mines_some hpl
  intro p hp
  simp only at hp
  have hmine : (cellAt b1 p).cell_type = CellType.Mine := by
    have := (adj_fold_preserves (raster g.width g.height) b1 p).2.2.2
    unfold compute_adjacency at hp
    exact this.mp hp
  rw [hb1] at hmine
  rcases foldl_setKind_src g.width g.height _ g.data p hmine with hcase | hcase
  · rw [hblank, cellAt_create_blank_board] at hcase
    exact absurd hcase (by unfold blankCell; simp)
  · exact ⟨ind, hind, hcase⟩



theorem surroundingCoords_congr {b b2 : Board}
    (hex : ∀ q, cell_exists b2 q = cell_exists b q) (p : Nat × Nat) :
    surroundingCoords b2 p = surroundingCoords b p := by
  unfold surroundingCoords get_surrounding_cells
  suffices hgen : ∀ ds : List (Int × Int),
      ((ds.filterMap (fun d =>
        let q : Nat × Nat := (castUsize ((p.1 : Int) + d.1), castUsize ((p.2 : Int) + d.2))
        if cell_exists b2 q then some (q.1, q.2, (cellAt b2 q).cell_type) else none)).map
          (fun q => (q.1, q.2.1))) =
      ((ds.filterMap (fun d =>
        let q : Nat × Nat := (castUsize ((p.1 : Int) + d.1), castUsize ((p.2 : Int) + d.2))
        if cell_exists b q then some (q.1, q.2, (cellAt b q).cell_type) else none)).map
          (fun q => (q.1, q.2.1))) by
    exact hgen directions
  intro ds
  induction ds with
  | nil => rfl
  | cons d ds ihd =>
    simp only [List.filterMap_cons]
    rw [hex]
    by_cases hcex : cell_exists b (castUsize ((p.1 : Int) + d.1),
        castUsize ((p.2 : Int) + d.2)) = true
    · rw [if_pos hcex, if_pos hcex]
      simp only [List.map_cons]
      rw [ihd]
    · rw [if_neg hcex, if_neg hcex]
      exact ihd

theorem wf_modifyCell {b : Board} {w h : Nat} (hwf : wf b w h) (p : Nat × Nat)
    (f : Cell → Cell) : wf (modifyCell b p f) w h := by
  rcases hex : cell_exists b p with _ | _
  · rw [modifyCell_not_exists f hex]
    exact hwf
  · obtain ⟨hlen, hrow⟩ := hwf
    constructor
    · rw [length_modifyCell]
      exact hlen
    · intro r hr
      unfold modifyCell at hr
      rcases List.mem_or_eq_of_mem_set hr with hr2 | rfl
      · exact hrow r hr2
      · rw [List.length_set]
        have hy : p.2 < b.length := by
          by_contra hc
          rw [cell_exists_eq_isSome,
            (List.getElem?_eq_none_iff (l := b) (n := p.2)).mpr (by omega)] at hex
          exact absurd hex (by simp)
        have : b.getD p.2 [] = b[p.2] := by
          rw [List.getD_eq_getElem?_getD, List.getElem?_eq_getElem hy]
          rfl
        rw [this]
        exact hrow _ (List.getElem_mem ..)

theorem wf_foldl {α : Type} {w h : Nat} (step : Board → α → Board)
    (hstep : ∀ b x, wf b w h → wf (step b x) w h) (l : List α) (b : Board)
    (hwf : wf b w h) : wf (l.foldl step b) w h := by
  have := foldl_trans_rel (fun a b2 => wf a w h → wf b2 w h) (fun _ => id)
    (fun _ _ _ h1 h2 h3 => h2 (h1 h3)) step (fun b2 x h2 => hstep b2 x h2) l b
  exact this hwf

theorem foldl_setKind_kinds (w h : Nat) :
    ∀ (l : List Nat) (b : Board) (p : Nat × Nat),
      (cellAt (l.foldl (fun acc i => setKind acc (i % w, i / h) CellType.Mine) b) p).cell_type =
          CellType.Mine ∨
        (cellAt (l.foldl (fun acc i => setKind acc (i % w, i / h) CellType.Mine) b)
          p).cell_type = (cellAt b p).cell_type := by
  intro l
  induction l with
  | nil => exact fun b p => Or.inr rfl
  | cons i l ihl =>
    intro b p
    simp only [List.foldl_cons]
    rcases ihl (setKind b (i % w, i / h) CellType.Mine) p with hm | heq
    · exact Or.inl hm
    · rw [heq]
      unfold setKind
      rw [cellAt_modifyCell]
      split
      · exact Or.inl rfl
      · exact Or.inr rfl

/-- Core of claim C1: the populated board has no mine at the selection nor
at any of its existing neighbours. -/
theorem populate_board_safe (shuffle : List Nat → List Nat) (g g' : Game)
    (hperm : ∀ l, List.Perm (shuffle l) l)
    (hblank : g.data = create_blank_board g.width g.height)
    (hsq : g.width = g.height)
    (hsel : inBounds g.width g.height g.selection)
    (hpop : populate_board shuffle g = some g') :
    (cellAt g'.data g.selection).cell_type ≠ CellType.Mine ∧
      ∀ q ∈ surroundingCoords g'.data g.selection,
        (cellAt g'.data q).cell_type ≠ CellType.Mine := by
  have hwfb : wf g.data g.width g.height := by
    rw [hblank]
    exact wf_create_blank_board ..
  have key : ∀ p, inBounds g.width g.height p →
      (p = g.selection ∨ p ∈ surroundingCoords g.data g.selection) →
      (cellAt g'.data p).cell_type ≠ CellType.Mine := by
    intro p hpin hcase hm
    obtain ⟨ind, hind, i, hi, hpi⟩ := populate_board_mine_src hblank hpop p hm
    obtain ⟨hsub, hnd, hnotsurr⟩ := mine_indices_spec hind
    have h1 : p.1 = i % g.width := by rw [hpi]
    have h2 : p.2 = i / g.width := by rw [hpi, ← hsq]
    have hdm := Nat.div_add_mod i g.width
    have hival : i = p.2 * g.width + p.1 := by
      rw [h1, h2, Nat.mul_comm]
      omega
    have himem : i ∈ ind := (hperm ind).subset (List.mem_of_mem_take hi)
    rcases hcase with heqp | hsurr
    · rw [heqp] at hival
      have hk : g.selection.2 * g.width + g.selection.1 < g.width * g.height := by
        have hs1 := hsel.1
        have hs2 := hsel.2
        calc g.selection.2 * g.width + g.selection.1
            < g.selection.2 * g.width + g.width := by omega
        _ = (g.selection.2 + 1) * g.width := by ring
        _ ≤ g.height * g.width := Nat.mul_le_mul_right _ (by omega)
        _ = g.width * g.height := Nat.mul_comm ..
      exact safe_not_mem_indices hk (List.Sublist.subset hsub (hival ▸ himem))
    · obtain ⟨_, s, hs, hsq2⟩ := mem_surroundingCoords hsurr
      apply hnotsurr s hs
      have : s.2.1 * g.width + s.1 = i := by
        rw [show s.1 = p.1 from by rw [← hsq2], show s.2.1 = p.2 from by rw [← hsq2]]
        omega
      rw [this]
      exact himem
  have hexpres := (populate_board_preserves hpop).2.2.2.2.2.2.1
  constructor
  · exact key g.selection hsel (Or.inl rfl)
  · intro q hq
    rw [surroundingCoords_congr hexpres] at hq
    have hqin : inBounds g.width g.height q :=
      (cell_exists_iff hwfb q).mp (mem_surroundingCoords hq).1
    exact key q hqin (Or.inr hq)



/-- Core of claim C2: in a populated board, a non-mine cell is
`Adjacent n` for exactly the positive neighbouring-mine counts `n` and
`Empty` exactly when no neighbour is a mine. -/
theorem populate_board_adjacent (shuffle : List Nat → List Nat) (g g' : Game)
    (hblank : g.data = create_blank_board g.width g.height)
    (hpop : populate_board shuffle g = some g') :
    ∀ p, inBounds g.width g.height p →
      (cellAt g'.data p).cell_type ≠ CellType.Mine →
      ((∀ n, (cellAt g'.data p).cell_type = CellType.Adjacent n ↔
          (adjacent_count g'.data p = n ∧ 0 < n)) ∧
        ((cellAt g'.data p).cell_type = CellType.Empty ↔ adjacent_count g'.data p = 0)) := by
  obtain ⟨ind, b1, hind, hpl, rfl⟩ := populate_board_some hpop
  obtain ⟨hb1, hle⟩ := place_mines_some hpl
  intro p hp hnm
  simp only at hnm ⊢
  have hwfb : wf g.data g.width g.height := by
    rw [hblank]
    exact wf_create_blank_board ..
  have hwfb1 : wf b1 g.width g.height := by
    rw [hb1]
    refine wf_foldl _ (fun b2 x hw => wf_modifyCell hw _ _) _ _ hwfb
  have hkinds : ∀ q, (cellAt b1 q).cell_type = CellType.Empty ∨
      (cellAt b1 q).cell_type = CellType.Mine := by
    intro q
    rcases hb1 ▸ foldl_setKind_kinds g.width g.height ((shuffle ind).take g.num_mines)
        g.data q with hm | he
    · exact Or.inr hm
    · rw [he, hblank, cellAt_create_blank_board]
      exact Or.inl rfl
  have hform := compute_adjacency_formula g.width g.height b1 hwfb1 hkinds p hp
  have hcnt : adjacent_count (compute_adjacency g.width g.height b1) p =
      adjacent_count b1 p := by
    refine adjacent_count_congr ?_ ?_ p
    · exact fun q => (adj_fold_preserves (raster g.width g.height) b1 q).2.2.1
    · exact fun q => (adj_fold_preserves (raster g.width g.height) b1 q).2.2.2
  by_cases hmine : (cellAt b1 p).cell_type = CellType.Mine
  · rw [if_pos hmine] at hform
    exact absurd hform hnm
  · rw [if_neg hmine] at hform
    by_cases hpos : 0 < adjacent_count b1 p
    · rw [if_pos hpos] at hform
      constructor
      · intro n
        constructor
        · intro hn
          rw [hform] at hn
          have : adjacent_count b1 p = n := by
            cases hn
            rfl
          rw [hcnt, this]
          exact ⟨rfl, by omega⟩
        · intro ⟨hcn, _⟩
          rw [hform]
          rw [hcnt] at hcn
          rw [hcn]
      · rw [hform]
        constructor
        · intro hc
          exact CellType.noConfusion hc
        · intro hc
          rw [hcnt] at hc
          omega
    · rw [if_neg hpos] at hform
      have hzero : adjacent_count b1 p = 0 := by omega
      constructor
      · intro n
        constructor
        · intro hn
          rw [hform] at hn
          exact CellType.noConfusion hn
        · intro ⟨hcn, hnpos⟩
          rw [hcnt, hzero] at hcn
          omega
      · rw [hform, hcnt, hzero]
        simp



/-! ### The Select command and cursor movement -/


theorem uncover_cell_uncovers_sel {b : Board} {sel : Nat × Nat}
    (hex : cell_exists b sel = true) :
    (cellAt (uncover_cell b sel) sel).covered = false := by
  unfold uncover_cell
  split
  · exact ((remove_floodInv (coveredCount (uncoverAt b sel) + 1) (uncoverAt b sel) sel).2
      sel).1 (by rw [cellAt_uncoverAt_self hex])
  · rw [cellAt_uncoverAt_self hex]

theorem uncover_cell_cell_exists (b : Board) (sel q : Nat × Nat) :
    cell_exists (uncover_cell b sel) q = cell_exists b q := by
  unfold uncover_cell
  split
  · exact ((remove_floodInv ..).1.1 q).trans (uncoverAt_cell_exists ..)
  · exact uncoverAt_cell_exists ..

/-- A Select on an already-touched game whose selected cell is uncovered
is a strict no-op: the whole game state is returned unchanged. -/
theorem select_command_noop (shuffle : List Nat → List Nat) (g : Game)
    (ht : g.is_touched = true)
    (hcov : (cellAt g.data g.selection).covered = false) :
    select_command shuffle g = some (g, SessionResult.Playing) := by
  unfold select_command
  rw [ht]
  simp only [if_true, Option.pure_def, Option.bind_eq_bind, Option.some_bind]
  rw [if_pos hcov]

/-- After any successful Select, the game is touched and the selected cell
is uncovered; hence a second Select at the same cell is a no-op. -/
theorem select_command_post (shuffle : List Nat → List Nat) (g g1 : Game)
    (r : SessionResult)
    (hex : cell_exists g.data g.selection = true)
    (h : select_command shuffle g = some (g1, r)) :
    g1.is_touched = true ∧ g1.selection = g.selection ∧
      (cellAt g1.data g1.selection).covered = false := by
  unfold select_command at h
  cases htc : g.is_touched with
  | true =>
    rw [htc] at h
    simp only [if_true, Option.pure_def, Option.bind_eq_bind, Option.some_bind] at h
    by_cases hcov : (cellAt g.data g.selection).covered = false
    · rw [if_pos hcov] at h
      obtain ⟨rfl, rfl⟩ := Prod.mk.injEq .. ▸ Option.some_inj.mp h
      exact ⟨htc, rfl, hcov⟩
    · rw [if_neg hcov] at h
      have hunc : (cellAt (uncover_cell g.data g.selection) g.selection).covered = false :=
        uncover_cell_uncovers_sel hex
      split at h
      · obtain ⟨rfl, rfl⟩ := Prod.mk.injEq .. ▸ Option.some_inj.mp h
        exact ⟨htc, rfl, hunc⟩
      · split at h
        · obtain ⟨rfl, rfl⟩ := Prod.mk.injEq .. ▸ Option.some_inj.mp h
          exact ⟨htc, rfl, hunc⟩
        · obtain ⟨rfl, rfl⟩ := Prod.mk.injEq .. ▸ Option.some_inj.mp h
          exact ⟨htc, rfl, hunc⟩
  | false =>
    rw [if_neg (by rw [htc]; simp)] at h
    cases hpop : populate_board shuffle g with
    | none =>
      rw [hpop] at h
      simp at h
    | some g2 =>
      rw [hpop] at h
      simp only [Option.map_some', Option.bind_eq_bind, Option.some_bind] at h
      obtain ⟨hw, hh, hsel, hn, hti, hse, hexp, hcovp⟩ := populate_board_preserves hpop
      have hext : cell_exists g2.data g.selection = true := (hexp g.selection).trans hex
      by_cases hcov : (cellAt g2.data g2.selection).covered = false
      · rw [if_pos hcov] at h
        obtain ⟨rfl, rfl⟩ := Prod.mk.injEq .. ▸ Option.some_inj.mp h
        exact ⟨rfl, hsel, hcov⟩
      · rw [if_neg hcov] at h
        have hunc : (cellAt (uncover_cell g2.data g2.selection) g2.selection).covered
            = false := uncover_cell_uncovers_sel (hsel ▸ hext)
        split at h
        · obtain ⟨rfl, rfl⟩ := Prod.mk.injEq .. ▸ Option.some_inj.mp h
          exact ⟨rfl, hsel, hunc⟩
        · split at h
          · obtain ⟨rfl, rfl⟩ := Prod.mk.injEq .. ▸ Option.some_inj.mp h
            exact ⟨rfl, hsel, hunc⟩
          · obtain ⟨rfl, rfl⟩ := Prod.mk.injEq .. ▸ Option.some_inj.mp h
            exact ⟨rfl, hsel, hunc⟩

/-- Selecting a covered mine on a touched game loses: the run ends in the
Lost state with everything shown. -/
theorem select_command_mine (shuffle : List Nat → List Nat) (g : Game)
    (hex : cell_exists g.data g.selection = true)
    (ht : g.is_touched = true)
    (hcov : (cellAt g.data g.selection).covered = true)
    (hk : (cellAt g.data g.selection).cell_type = CellType.Mine) :
    select_command shuffle g =
      some ({ g with data := uncoverAt g.data g.selection, show_everything := true },
        SessionResult.Lost) := by
  unfold select_command
  rw [ht]
  simp only [if_true, Option.pure_def, Option.bind_eq_bind, Option.some_bind]
  rw [if_neg (by rw [hcov]; simp)]
  have hdata : uncover_cell g.data g.selection = uncoverAt g.data g.selection := by
    unfold uncover_cell
    rw [if_neg (by rw [uncoverAt_kind, hk]; simp)]
  rw [hdata]
  rw [if_pos ⟨by rw [uncoverAt_kind]; exact hk, by rw [cellAt_uncoverAt_self hex]⟩]
  rw [ht]



theorem castUsize_coe (n : Nat) (hn : n < USIZE) : castUsize n = n := by
  unfold castUsize
  rw [Int.emod_eq_of_lt (by omega) (by exact_mod_cast hn)]
  exact Int.toNat_natCast n

theorem castUsize_neg_one : castUsize (-1) = USIZE - 1 := by decide

theorem get_input_direction_inBounds (g : Game) (w h : Nat) (hwf : wf g.data w h)
    (hsx : g.selection.1 < w) (hsy : g.selection.2 < h) (k : MoveKey) :
    (get_input_direction g k).1 < w ∧ (get_input_direction g k).2 < h := by
  unfold get_input_direction
  split
  · next hex => exact (cell_exists_iff hwf _).mp hex
  · exact ⟨hsx, hsy⟩

theorem hUSIZE_big : (2 : Nat) ^ 63 < USIZE - 1 := by
  unfold USIZE
  norm_num

theorem get_input_direction_clamps (g : Game) (w h : Nat) (hwf : wf g.data w h)
    (hsx : g.selection.1 < w) (hsy : g.selection.2 < h)
    (hw : w ≤ 2 ^ 63) (hh : h ≤ 2 ^ 63) :
    (g.selection.1 = 0 → get_input_direction g MoveKey.left = g.selection) ∧
    (g.selection.1 = w - 1 → get_input_direction g MoveKey.right = g.selection) ∧
    (g.selection.2 = 0 → get_input_direction g MoveKey.down = g.selection) ∧
    (g.selection.2 = h - 1 → get_input_direction g MoveKey.up = g.selection) := by
  have hUS := hUSIZE_big
  have hcx : castUsize (g.selection.1 : Int) = g.selection.1 :=
    castUsize_coe _ (by unfold USIZE at *; omega)
  have hcy : castUsize (g.selection.2 : Int) = g.selection.2 :=
    castUsize_coe _ (by unfold USIZE at *; omega)
  refine ⟨?_, ?_, ?_, ?_⟩
  · intro h0
    unfold get_input_direction
    rw [if_neg ?_]
    show ¬ cell_exists g.data
      (castUsize (moveTarget g MoveKey.left).1, castUsize (moveTarget g MoveKey.left).2) = true
    unfold moveTarget
    simp only [h0]
    have hc1 : castUsize (((0 : Nat) : Int) - 1) = USIZE - 1 := by
      rw [show (((0 : Nat) : Int) - 1) = -1 by norm_num]
      exact castUsize_neg_one
    rw [hc1, hcy]
    rw [cell_exists_false_of_not hwf ?_]
    · simp
    · intro hib
      have := hib.1
      omega
  · intro h0
    unfold get_input_direction
    rw [if_neg ?_]
    show ¬ cell_exists g.data
      (castUsize (moveTarget g MoveKey.right).1, castUsize (moveTarget g MoveKey.right).2) = true
    unfold moveTarget
    simp only [h0]
    have hwpos : 0 < w := by omega
    have hc1 : castUsize (((w - 1 : Nat) : Int) + 1) = w := by
      rw [show (((w - 1 : Nat) : Int) + 1) = (w : Int) by omega]
      exact castUsize_coe _ (by unfold USIZE at *; omega)
    rw [hc1, hcy]
    rw [cell_exists_false_of_not hwf ?_]
    · simp
    · intro hib
      have := hib.1
      omega
  · intro h0
    unfold get_input_direction
    rw [if_neg ?_]
    show ¬ cell_exists g.data
      (castUsize (moveTarget g MoveKey.down).1, castUsize (moveTarget g MoveKey.down).2) = true
    unfold moveTarget
    simp only [h0]
    have hc1 : castUsize (((0 : Nat) : Int) - 1) = USIZE - 1 := by
      rw [show (((0 : Nat) : Int) - 1) = -1 by norm_num]
      exact castUsize_neg_one
    rw [hc1, hcx]
    rw [cell_exists_false_of_not hwf ?_]
    · simp
    · intro hib
      have := hib.2
      omega
  · intro h0
    unfold get_input_direction
    rw [if_neg ?_]
    show ¬ cell_exists g.data
      (castUsize (moveTarget g MoveKey.up).1, castUsize (moveTarget g MoveKey.up).2) = true
    unfold moveTarget
    simp only [h0]
    have hhpos : 0 < h := by omega
    have hc1 : castUsize (((h - 1 : Nat) : Int) + 1) = h := by
      rw [show (((h - 1 : Nat) : Int) + 1) = (h : Int) by omega]
      exact castUsize_coe _ (by unfold USIZE at *; omega)
    rw [hc1, hcx]
    rw [cell_exists_false_of_not hwf ?_]
    · simp
    · intro hib
      have := hib.2
      omega



/-! ### Claims -/


/-- Claim C1: after `populate_board` runs on the first select, the
selected safe cell and every one of its existing neighbours have kind not
equal to `Mine`.  The hypotheses record the conditions of every actual
invocation: a freshly blanked square board, an in-bounds selection, and
the `rand` shuffle being a permutation. -/
theorem claim_C1 (shuffle : List Nat → List Nat) (g g' : Game)
    (hperm : ∀ l, List.Perm (shuffle l) l)
    (hblank : g.data = create_blank_board g.width g.height)
    (hsq : g.width = g.height)
    (hsel : inBounds g.width g.height g.selection)
    (hpop : populate_board shuffle g = some g') :
    (cellAt g'.data g.selection).cell_type ≠ CellType.Mine ∧
      ∀ q ∈ surroundingCoords g'.data g.selection,
        (cellAt g'.data q).cell_type ≠ CellType.Mine :=
  populate_board_safe shuffle g g' hperm hblank hsq hsel hpop

theorem claim_C1_witness :
    (∀ l : List Nat, List.Perm (id l) l) ∧
    sampleGame.data = create_blank_board sampleGame.width sampleGame.height ∧
    sampleGame.width = sampleGame.height ∧
    inBounds sampleGame.width sampleGame.height sampleGame.selection ∧
    populate_board id sampleGame = some samplePopulated ∧
    ((cellAt samplePopulated.data sampleGame.selection).cell_type ≠ CellType.Mine ∧
      ∀ q ∈ surroundingCoords samplePopulated.data sampleGame.selection,
        (cellAt samplePopulated.data q).cell_type ≠ CellType.Mine) :=
  ⟨fun l => List.Perm.refl l, rfl, rfl, by unfold inBounds; decide, by decide,
   claim_C1 id sampleGame samplePopulated (fun l => List.Perm.refl l) rfl rfl
     (by unfold inBounds; decide) (by decide)⟩

/-- Claim C2: after `populate_board` completes, a non-mine cell has kind
`Adjacent n` exactly for the positive count `n` of mine-kind existing
neighbours, and kind `Empty` exactly when that count is zero. -/
theorem claim_C2 (shuffle : List Nat → List Nat) (g g' : Game)
    (hblank : g.data = create_blank_board g.width g.height)
    (hpop : populate_board shuffle g = some g') :
    ∀ p, inBounds g.width g.height p →
      (cellAt g'.data p).cell_type ≠ CellType.Mine →
      ((∀ n, (cellAt g'.data p).cell_type = CellType.Adjacent n ↔
          (adjacent_count g'.data p = n ∧ 0 < n)) ∧
        ((cellAt g'.data p).cell_type = CellType.Empty ↔
          adjacent_count g'.data p = 0)) :=
  populate_board_adjacent shuffle g g' hblank hpop

theorem claim_C2_witness :
    sampleGame.data = create_blank_board sampleGame.width sampleGame.height ∧
    populate_board id sampleGame = some samplePopulated ∧
    ∀ p, inBounds sampleGame.width sampleGame.height p →
      (cellAt samplePopulated.data p).cell_type ≠ CellType.Mine →
      ((∀ n, (cellAt samplePopulated.data p).cell_type = CellType.Adjacent n ↔
          (adjacent_count samplePopulated.data p = n ∧ 0 < n)) ∧
        ((cellAt samplePopulated.data p).cell_type = CellType.Empty ↔
          adjacent_count samplePopulated.data p = 0)) :=
  ⟨rfl, by decide, claim_C2 id sampleGame samplePopulated rfl (by decide)⟩



/-- Claim C3 (amended with the hypothesis that every cell of the board is
still covered): on a board satisfying the adjacency invariant, uncovering
a covered `Empty` cell uncovers exactly its connected component of
`Empty` cells together with the existing neighbours of that component,
those bordering neighbours are `Adjacent` cells, and no other cell
changes its covered flag. -/
theorem claim_C3 (b : Board) (w h : Nat) (c : Nat × Nat)
    (hwf : wf b w h) (hmine : emptyNoMine b w h) (hadj : adjacentExact b w h)
    (hcov : allCoveredBoard b w h) (hc : inBounds w h c)
    (hck : (cellAt b c).cell_type = CellType.Empty) :
    (∀ p, (cellAt (uncover_cell b c) p).covered = false ↔
      (reachEmpty b c p ∨ ∃ e, reachEmpty b c e ∧ p ∈ surroundingCoords b e)) ∧
    ∀ p, (∃ e, reachEmpty b c e ∧ p ∈ surroundingCoords b e) → ¬ reachEmpty b c p →
      ∃ n, (cellAt b p).cell_type = CellType.Adjacent n :=
  ⟨uncover_cell_exact b w h c hwf hcov hc hck,
   uncover_cell_border b w h c hwf hmine hc hck⟩

/-- Claim C3, counterexample to the unamended statement: `gapBoard`
satisfies the adjacency invariant and `(0, 0)` is a covered `Empty` cell
whose Empty component contains `(2, 0)`, yet uncovering `(0, 0)` leaves
`(2, 0)` covered, because the flood fill stops at the already uncovered
cell `(1, 0)`. -/
theorem claim_C3_counterexample :
    wf gapBoard 5 1 ∧ emptyNoMine gapBoard 5 1 ∧ adjacentExact gapBoard 5 1 ∧
    inBounds 5 1 (0, 0) ∧
    (cellAt gapBoard (0, 0)).cell_type = CellType.Empty ∧
    (cellAt gapBoard (0, 0)).covered = true ∧
    reachEmpty gapBoard (0, 0) (2, 0) ∧
    (cellAt (uncover_cell gapBoard (0, 0)) (2, 0)).covered = true := by
  refine ⟨by unfold wf; decide, by unfold emptyNoMine; decide,
    by unfold adjacentExact; decide, by unfold inBounds; decide, by decide, by decide,
    ?_, by decide⟩
  unfold reachEmpty
  have h1 : reachStep gapBoard (0, 0) (1, 0) := by
    unfold reachStep
    exact ⟨by decide, by decide⟩
  have h2 : reachStep gapBoard (1, 0) (2, 0) := by
    unfold reachStep
    exact ⟨by decide, by decide⟩
  exact Relation.ReflTransGen.tail (Relation.ReflTransGen.single h1) h2

theorem claim_C3_witness :
    wf sampleMineBoard 3 3 ∧ emptyNoMine sampleMineBoard 3 3 ∧
    adjacentExact sampleMineBoard 3 3 ∧ allCoveredBoard sampleMineBoard 3 3 ∧
    inBounds 3 3 (0, 0) ∧ (cellAt sampleMineBoard (0, 0)).cell_type = CellType.Empty ∧
    ((∀ p, (cellAt (uncover_cell sampleMineBoard (0, 0)) p).covered = false ↔
        (reachEmpty sampleMineBoard (0, 0) p ∨
          ∃ e, reachEmpty sampleMineBoard (0, 0) e ∧ p ∈ surroundingCoords sampleMineBoard e)) ∧
      ∀ p, (∃ e, reachEmpty sampleMineBoard (0, 0) e ∧
          p ∈ surroundingCoords sampleMineBoard e) →
        ¬ reachEmpty sampleMineBoard (0, 0) p →
        ∃ n, (cellAt sampleMineBoard p).cell_type = CellType.Adjacent n) :=
  ⟨by unfold wf; decide, by unfold emptyNoMine; decide, by unfold adjacentExact; decide,
   by unfold allCoveredBoard; decide, by unfold inBounds; decide, by decide,
   claim_C3 sampleMineBoard 3 3 (0, 0) (by unfold wf; decide)
     (by unfold emptyNoMine; decide) (by unfold adjacentExact; decide)
     (by unfold allCoveredBoard; decide) (by unfold inBounds; decide) (by decide)⟩

/-- Claim C4: the recursive flood fill terminates on every finite board —
formally, the fuel-indexed approximations of
`remove_surrounding_empty_cells` stabilise as soon as the fuel exceeds
the number of covered cells, which strictly decreases at each recursive
call. -/
theorem claim_C4 (b : Board) (c : Nat × Nat) (fuel : Nat)
    (h : coveredCount b < fuel) :
    remove_surrounding_empty_cells fuel b c =
      remove_surrounding_empty_cells (coveredCount b + 1) b c :=
  remove_fuel_stable b c fuel h

theorem claim_C4_witness :
    coveredCount (create_blank_board 2 2) < 6 ∧
      remove_surrounding_empty_cells 6 (create_blank_board 2 2) (0, 0) =
        remove_surrounding_empty_cells (coveredCount (create_blank_board 2 2) + 1)
          (create_blank_board 2 2) (0, 0) :=
  ⟨by decide, claim_C4 (create_blank_board 2 2) (0, 0) 6 (by decide)⟩



/-- Claim C5 (amended with the hypothesis that the board really contains
`num_mines` mine cells): `has_won` returns true iff every non-mine cell
is uncovered and every mine cell is still covered. -/
theorem claim_C5 (g : Game) (hwf : wf g.data g.width g.height)
    (hm : mineCount g.data = g.num_mines) :
    has_won g = true ↔
      ∀ row ∈ g.data, ∀ c ∈ row,
        (c.cell_type ≠ CellType.Mine → c.covered = false) ∧
        (c.cell_type = CellType.Mine → c.covered = true) :=
  has_won_iff g hwf hm

/-- Claim C5, counterexample to the unamended statement: in
`sampleMismatchGame` every non-mine cell is uncovered and no mine cell is
uncovered, yet `has_won` is false, because the board has no mine while
`num_mines = 1` and the code only compares the uncovered count with
`width * height - num_mines`. -/
theorem claim_C5_counterexample :
    ¬ (has_won sampleMismatchGame = true ↔
      ∀ row ∈ sampleMismatchGame.data, ∀ c ∈ row,
        (c.cell_type ≠ CellType.Mine → c.covered = false) ∧
        (c.cell_type = CellType.Mine → c.covered = true)) := by
  decide

theorem claim_C5_witness :
    wf sampleWonGame.data sampleWonGame.width sampleWonGame.height ∧
    mineCount sampleWonGame.data = sampleWonGame.num_mines ∧
    (has_won sampleWonGame = true ↔
      ∀ row ∈ sampleWonGame.data, ∀ c ∈ row,
        (c.cell_type ≠ CellType.Mine → c.covered = false) ∧
        (c.cell_type = CellType.Mine → c.covered = true)) :=
  ⟨by unfold wf; decide, by decide,
   claim_C5 sampleWonGame (by unfold wf; decide) (by decide)⟩

/-- Claim C6: a Select on a cell whose covered flag is already false is a
no-op returning the whole game state unchanged (on a touched game — the
first Select of a session populates the board before reading the flag),
and hence the second of two Selects of the same cell never changes the
state. -/
theorem claim_C6 (shuffle : List Nat → List Nat) (g : Game)
    (hex : cell_exists g.data g.selection = true) :
    (g.is_touched = true → (cellAt g.data g.selection).covered = false →
      select_command shuffle g = some (g, SessionResult.Playing)) ∧
    ∀ g1 r, select_command shuffle g = some (g1, r) →
      select_command shuffle g1 = some (g1, SessionResult.Playing) := by
  refine ⟨fun ht hcov => select_command_noop shuffle g ht hcov, ?_⟩
  intro g1 r h
  obtain ⟨ht1, _, hcov1⟩ := select_command_post shuffle g g1 r hex h
  exact select_command_noop shuffle g1 ht1 hcov1

theorem claim_C6_witness :
    cell_exists sampleUncoveredGame.data sampleUncoveredGame.selection = true ∧
    ((sampleUncoveredGame.is_touched = true →
        (cellAt sampleUncoveredGame.data sampleUncoveredGame.selection).covered = false →
        select_command id sampleUncoveredGame =
          some (sampleUncoveredGame, SessionResult.Playing)) ∧
      ∀ g1 r, select_command id sampleUncoveredGame = some (g1, r) →
        select_command id g1 = some (g1, SessionResult.Playing)) :=
  ⟨by decide, claim_C6 id sampleUncoveredGame (by decide)⟩

/-- Claim C9: selecting a covered Mine cell ends the session in the Lost
state, `end_screen` switches on `show_everything`, and with it every mine
cell of the board is rendered visible by `draw_board`. -/
theorem claim_C9 (shuffle : List Nat → List Nat) (g : Game)
    (hex : cell_exists g.data g.selection = true)
    (ht : g.is_touched = true)
    (hcov : (cellAt g.data g.selection).covered = true)
    (hk : (cellAt g.data g.selection).cell_type = CellType.Mine) :
    select_command shuffle g =
      some ({ g with data := uncoverAt g.data g.selection, show_everything := true },
        SessionResult.Lost) ∧
    ∀ p, (cellAt (uncoverAt g.data g.selection) p).cell_type = CellType.Mine →
      is_visible { g with data := uncoverAt g.data g.selection, show_everything := true }
        (cellAt (uncoverAt g.data g.selection) p) = true := by
  refine ⟨select_command_mine shuffle g hex ht hcov hk, ?_⟩
  intro p _
  rfl

theorem claim_C9_witness :
    cell_exists sampleWonGame.data sampleWonGame.selection = true ∧
    sampleWonGame.is_touched = true ∧
    (cellAt sampleWonGame.data sampleWonGame.selection).covered = true ∧
    (cellAt sampleWonGame.data sampleWonGame.selection).cell_type = CellType.Mine ∧
    (select_command id sampleWonGame =
        some ({ sampleWonGame with
            data := uncoverAt sampleWonGame.data sampleWonGame.selection,
            show_everything := true }, SessionResult.Lost) ∧
      ∀ p, (cellAt (uncoverAt sampleWonGame.data sampleWonGame.selection) p).cell_type =
          CellType.Mine →
        is_visible { sampleWonGame with
            data := uncoverAt sampleWonGame.data sampleWonGame.selection,
            show_everything := true }
          (cellAt (uncoverAt sampleWonGame.data sampleWonGame.selection) p) = true) :=
  ⟨by decide, by decide, by decide, by decide,
   claim_C9 id sampleWonGame (by decide) (by decide) (by decide) (by decide)⟩

/-- Claim C10: the flood fill of a covered `Empty` cell clears the
covered and marked flags of every existing neighbour regardless of its
kind — in particular a `Mine` neighbouring an `Empty` cell is uncovered
with it. -/
theorem claim_C10 (b : Board) (sel : Nat × Nat)
    (hex : cell_exists b sel = true)
    (hk : (cellAt b sel).cell_type = CellType.Empty) :
    ∀ q ∈ surroundingCoords b sel,
      (cellAt (uncover_cell b sel) q).covered = false ∧
        (cellAt (uncover_cell b sel) q).marked = false := by
  intro q hq
  obtain ⟨_, s, hs, hsq⟩ := mem_surroundingCoords hq
  have hk1 : (cellAt (uncoverAt b sel) sel).cell_type = CellType.Empty := by
    rw [uncoverAt_kind]
    exact hk
  have hunf : uncover_cell b sel =
      remove_surrounding_empty_cells (coveredCount (uncoverAt b sel) + 1)
        (uncoverAt b sel) sel := by
    unfold uncover_cell
    rw [if_pos hk1]
  have hsurr : get_surrounding_cells (uncoverAt b sel) sel = get_surrounding_cells b sel :=
    surrounding_eq_of_boardLike (floodInv_uncoverAt ..).1 sel
  rw [hunf, ← hsq]
  exact remove_uncovers_nbrs _ _ _ (by omega) s (by rw [hsurr]; exact hs)

theorem claim_C10_witness :
    cell_exists sampleRowMineBoard (1, 0) = true ∧
    (cellAt sampleRowMineBoard (1, 0)).cell_type = CellType.Empty ∧
    (2, 0) ∈ surroundingCoords sampleRowMineBoard (1, 0) ∧
    (cellAt sampleRowMineBoard (2, 0)).cell_type = CellType.Mine ∧
    ∀ q ∈ surroundingCoords sampleRowMineBoard (1, 0),
      (cellAt (uncover_cell sampleRowMineBoard (1, 0)) q).covered = false ∧
        (cellAt (uncover_cell sampleRowMineBoard (1, 0)) q).marked = false :=
  ⟨by decide, by decide, by decide, by decide,
   claim_C10 sampleRowMineBoard (1, 0) (by decide) (by decide)⟩



/-- Claim C7 (amended: restricted to the final revision's input handler
`get_input`; the historical revision's `get_next_selection` wraps at the
horizontal edges, see the counterexample): every directional move keeps
the Selection inside the grid, a move attempted past an edge leaves the
Selection unchanged, and repeating a direction that left the Selection
unchanged is idempotent. -/
theorem claim_C7 (g : Game) (w h : Nat) (hwf : wf g.data w h)
    (hsx : g.selection.1 < w) (hsy : g.selection.2 < h)
    (hw : w ≤ 2 ^ 63) (hh : h ≤ 2 ^ 63) :
    (∀ k, (get_input_direction g k).1 < w ∧ (get_input_direction g k).2 < h) ∧
    ((g.selection.1 = 0 → get_input_direction g MoveKey.left = g.selection) ∧
      (g.selection.1 = w - 1 → get_input_direction g MoveKey.right = g.selection) ∧
      (g.selection.2 = 0 → get_input_direction g MoveKey.down = g.selection) ∧
      (g.selection.2 = h - 1 → get_input_direction g MoveKey.up = g.selection)) ∧
    ∀ k, get_input_direction g k = g.selection →
      get_input_direction { g with selection := get_input_direction g k } k =
        get_input_direction g k := by
  refine ⟨fun k => get_input_direction_inBounds g w h hwf hsx hsy k,
    get_input_direction_clamps g w h hwf hsx hsy hw hh, ?_⟩
  intro k hk
  rw [hk]
  exact hk

/-- Claim C7, counterexample to the unamended statement: in the
historical revision (src/game.rs), a Right command at the right edge of a
9 by 9 board does not leave the Selection unchanged but wraps to the
start of the adjacent row. -/
theorem claim_C7_counterexample :
    get_next_selection MoveKey.right (8, 0) 9 9 = some (0, 1) ∧
      ((0, 1) : Nat × Nat) ≠ (8, 0) := by
  decide

theorem claim_C7_witness :
    wf sampleNineGame.data 9 9 ∧ sampleNineGame.selection.1 < 9 ∧
    sampleNineGame.selection.2 < 9 ∧ (9 : Nat) ≤ 2 ^ 63 ∧
    ((∀ k, (get_input_direction sampleNineGame k).1 < 9 ∧
        (get_input_direction sampleNineGame k).2 < 9) ∧
      ((sampleNineGame.selection.1 = 0 →
          get_input_direction sampleNineGame MoveKey.left = sampleNineGame.selection) ∧
        (sampleNineGame.selection.1 = 9 - 1 →
          get_input_direction sampleNineGame MoveKey.right = sampleNineGame.selection) ∧
        (sampleNineGame.selection.2 = 0 →
          get_input_direction sampleNineGame MoveKey.down = sampleNineGame.selection) ∧
        (sampleNineGame.selection.2 = 9 - 1 →
          get_input_direction sampleNineGame MoveKey.up = sampleNineGame.selection)) ∧
      ∀ k, get_input_direction sampleNineGame k = sampleNineGame.selection →
        get_input_direction
            { sampleNineGame with selection := get_input_direction sampleNineGame k } k =
          get_input_direction sampleNineGame k) :=
  ⟨by unfold wf; decide, by decide, by decide, by norm_num,
   claim_C7 sampleNineGame 9 9 (by unfold wf; decide) (by decide) (by decide)
     (by norm_num) (by norm_num)⟩

/-- Claim C8: the code does not report a recoverable `InsufficientSpace`
error.  When `num_mines` exceeds the number of eligible cells left after
the safe zone is removed, slicing `&mine_indices[0..num_mines]` aborts
the process; the model returns `none` (the abort) on such an input. -/
theorem claim_C8 : populate_board id sampleTinyGame = none := by
  decide


end Minesweeper
